import Mathlib

/-!
# ODF: summed-area table, bounding boxes and the sliding-window scan

A shallow embedding of `src/odf/sat.cpp`, `src/odf/boundingbox.cpp`,
`src/odf/slidingwindow.cpp` and of the file-name methods of `src/odf/image.cpp`.

Conventions of the embedding:

* `int` and `unsigned int` values are unbounded `Int` and `Nat`: the statements
  are about executions in which no 32-bit arithmetic wraps;
* `double` values are exact rationals; a division by a zero reference area,
  whose IEEE result is a NaN or an infinity, is reported as `Fault.nonFinite`;
  where the results of separate `double` operations are compared, the binary64
  rounding of each operation is explicit (`roundDouble`);
* a read outside the integral image (undefined behaviour of `cv::Mat::at`)
  is reported as `Fault.outOfBounds`;
* loops that need not terminate take a fuel argument and report
  `Status.outOfFuel` when it is used up.
-/

namespace ODF

/-! ## Geometry (the parts of `cv::Point` and `cv::Rect` the code uses) -/

/-- Integer point, `cv::Point`. -/
structure Point where
  x : Int
  y : Int
  deriving DecidableEq, Repr

/-- Integer rectangle, `cv::Rect`: top-left corner and size. -/
structure Rect where
  x : Int
  y : Int
  width : Int
  height : Int
  deriving DecidableEq, Repr

/-- The constructor `cv::Rect(pt1, pt2)`: the rectangle spanned by two corners. -/
def Rect.ofPoints (pt1 pt2 : Point) : Rect :=
  { x := min pt1.x pt2.x
    y := min pt1.y pt2.y
    width := max pt1.x pt2.x - min pt1.x pt2.x
    height := max pt1.y pt2.y - min pt1.y pt2.y }

/-- The method `cv::Rect::area()`. -/
def Rect.area (r : Rect) : Int := r.width * r.height

/-- The operator `a & b` of `cv::Rect`: the intersection, or the default
rectangle `(0,0,0,0)` when it is empty. -/
def Rect.inter (a b : Rect) : Rect :=
  let x1 := max a.x b.x
  let y1 := max a.y b.y
  let w := min (a.x + a.width) (b.x + b.width) - x1
  let h := min (a.y + a.height) (b.y + b.height) - y1
  if w ≤ 0 ∨ h ≤ 0 then { x := 0, y := 0, width := 0, height := 0 }
  else { x := x1, y := y1, width := w, height := h }

/-- Modelled from the spec: the operator `a | b` of the external `cv::Rect`
type (OpenCV 2.4, not under src/), the geometric union of two rectangles: the
smallest rectangle whose edges enclose the edges of both. -/
def Rect.union (a b : Rect) : Rect :=
  let x1 := min a.x b.x
  let y1 := min a.y b.y
  { x := x1
    y := y1
    width := max (a.x + a.width) (b.x + b.width) - x1
    height := max (a.y + a.height) (b.y + b.height) - y1 }

/-- Edge-wise containment: every edge of `inner` lies within `outer`. -/
def Rect.Within (inner outer : Rect) : Prop :=
  outer.x ≤ inner.x ∧ outer.y ≤ inner.y ∧
  inner.x + inner.width ≤ outer.x + outer.width ∧
  inner.y + inner.height ≤ outer.y + outer.height

instance (a b : Rect) : Decidable (Rect.Within a b) := by
  unfold Rect.Within; infer_instance

/-! ## Matrices -/

/-- The OpenCV type code of a single-channel 8-bit matrix. -/
def CV_8U : Nat := 0

/-- The part of `cv::Mat` the code reads: type code, size and the elements
(`px r c` is the element at row `r`, column `c`). -/
structure Mat where
  type : Nat
  rows : Nat
  cols : Nat
  px : Nat → Nat → Nat

/-- A 32-bit integer matrix (`CV_32S`), the type of the integral image. -/
structure IntMat where
  rows : Nat
  cols : Nat
  cell : Nat → Nat → Int

/-- The access `m.at<int>(y, x)`; `none` stands for a read outside the matrix. -/
def IntMat.get (m : IntMat) (y x : Int) : Option Int :=
  if 0 ≤ y ∧ y < m.rows ∧ 0 ≤ x ∧ x < m.cols then some (m.cell y.toNat x.toNat) else none

/-- Modelled from the spec: the external OpenCV element operation of
`mask / 255` on 8-bit data (not under src/): the quotient rounded to the
nearest integer, so values up to 127 give 0 and values from 128 to 255 give 1. -/
def div255 (v : Nat) : Nat := (2 * v + 255) / 510

/-- Running sum of row `r` over the columns `[0, c)`. -/
def rowSum (f : Nat → Nat → Nat) (r : Nat) : Nat → Nat
  | 0 => 0
  | c + 1 => rowSum f r c + f r c

/-- Cell `(r, c)` of the integral image of `f`: the cell above plus the running
sum of the row just completed. -/
def integralCell (f : Nat → Nat → Nat) : Nat → Nat → Nat
  | 0, _ => 0
  | r + 1, c => integralCell f r c + rowSum f r c

/-- Modelled from the spec: the external OpenCV primitive `cv::integral`
(not under src/) applied to `mask / 255`: a `(rows+1) x (cols+1)` table of
row/column prefix sums. -/
def integral (mask : Mat) : IntMat :=
  { rows := mask.rows + 1
    cols := mask.cols + 1
    cell := fun r c => (integralCell (fun i j => div255 (mask.px i j)) r c : Int) }

/-! ## SAT (`sat.cpp`) -/

/-- What can go wrong in the modelled code. -/
inductive Fault where
  | logicError
  | outOfBounds
  | nonFinite
  deriving DecidableEq, Repr

instance : DecidableEq (Except Fault ℚ) := fun a b =>
  match a, b with
  | .ok x, .ok y =>
    if h : x = y then isTrue (by rw [h]) else isFalse (fun h2 => h (Except.ok.inj h2))
  | .error x, .error y =>
    if h : x = y then isTrue (by rw [h]) else isFalse (fun h2 => h (Except.error.inj h2))
  | .ok _, .error _ => isFalse (fun h => by cases h)
  | .error _, .ok _ => isFalse (fun h => by cases h)

/-- The class `SAT`. -/
structure SAT where
  sat : IntMat
  have_sat : Bool

/-- The constructor `SAT::SAT()`. -/
def SAT.empty : SAT :=
  { sat := { rows := 0, cols := 0, cell := fun _ _ => 0 }, have_sat := false }

/-- The constructor `SAT::SAT(const cv::Mat &mask)`. -/
def SAT.build (mask : Mat) : Except Fault SAT :=
  if mask.type ≠ CV_8U then .error .logicError
  else .ok { sat := integral mask, have_sat := true }

/-- The method `SAT::fillRatio(rect, area)`. -/
def SAT.fillRatio (s : SAT) (rect : Rect) (area : Nat) : Except Fault ℚ :=
  let x1 := rect.x
  let y1 := rect.y
  let x2 := x1 + rect.width
  let y2 := y1 + rect.height
  if !s.have_sat then .ok 0
  else
    match s.sat.get y2 x2, s.sat.get y2 x1, s.sat.get y1 x2, s.sat.get y1 x1 with
    | some a, some b, some c, some d =>
      let sum : Int := a - b - c + d
      if area = 0 then .error .nonFinite else .ok ((sum : ℚ) * 100 / (area : ℚ))
    | _, _, _, _ => .error .outOfBounds

/-- The method `SAT::fillRatio(rect)`: the reference area is `rect.area()`,
converted to `unsigned int` (the identity on the non-negative areas of
well-formed rectangles). -/
def SAT.fillRatioRect (s : SAT) (rect : Rect) : Except Fault ℚ :=
  s.fillRatio rect rect.area.toNat

/-! ## BoundingBox (`boundingbox.cpp`) -/

/-- The constant `ODF_BB_INVALID_FILL_RATIO`. -/
def ODF_BB_INVALID_FILL_RATIO : ℚ := -1

/-- The class `BoundingBox`. -/
structure BoundingBox where
  bounding_box : Rect
  best_fit_box : Rect
  fill_ratio : ℚ
  deriving DecidableEq

/-- The constructor `BoundingBox(rect)`. -/
def BoundingBox.ofRect (rect : Rect) : BoundingBox :=
  { bounding_box := rect, best_fit_box := rect, fill_ratio := 0 }

/-- The constructor `BoundingBox(rect, fill_ratio)`. -/
def BoundingBox.create (rect : Rect) (fill_ratio : ℚ) : BoundingBox :=
  { bounding_box := rect, best_fit_box := rect, fill_ratio := fill_ratio }

/-- The method `BoundingBox::doesIntersect`. -/
def BoundingBox.doesIntersect (b : BoundingBox) (rect : Rect) : Bool :=
  let intersection := b.bounding_box.inter rect
  if intersection.area > 0 then true else false

/-- The method `BoundingBox::expand(rect, fill_ratio)`. -/
def BoundingBox.expand (b : BoundingBox) (rect : Rect) (fill_ratio : ℚ) : BoundingBox :=
  let b1 := { b with bounding_box := b.bounding_box.union rect }
  if fill_ratio = ODF_BB_INVALID_FILL_RATIO ∨ b1.fill_ratio ≥ fill_ratio then b1
  else { b1 with fill_ratio := fill_ratio, best_fit_box := rect }

/-- The method `BoundingBox::expand(rect)`. -/
def BoundingBox.expandRect (b : BoundingBox) (rect : Rect) : BoundingBox :=
  b.expand rect ODF_BB_INVALID_FILL_RATIO

/-- The method `BoundingBox::expandIfIntersect(rect, fill_ratio)`: the returned
flag and the box after the call. -/
def BoundingBox.expandIfIntersect (b : BoundingBox) (rect : Rect) (fill_ratio : ℚ) :
    Bool × BoundingBox :=
  let intersect := b.doesIntersect rect
  if intersect then (intersect, b.expand rect fill_ratio) else (intersect, b)

/-- The method `BoundingBox::expandIfIntersect(rect)`. -/
def BoundingBox.expandIfIntersectRect (b : BoundingBox) (rect : Rect) : Bool × BoundingBox :=
  b.expandIfIntersect rect ODF_BB_INVALID_FILL_RATIO

/-- A sequence of `expand` calls, applied from left to right. -/
def BoundingBox.expandAll (b : BoundingBox) (calls : List (Rect × ℚ)) : BoundingBox :=
  calls.foldl (fun acc c => acc.expand c.1 c.2) b

/-- The method `BoundingBox::getBoundingBox`. -/
def BoundingBox.getBoundingBox (b : BoundingBox) : Rect :=
  b.bounding_box

/-- The method `BoundingBox::getBestFitBox`; its body is
`return this->bounding_box;`. -/
def BoundingBox.getBestFitBox (b : BoundingBox) : Rect :=
  b.bounding_box

/-- The method `BoundingBox::getFillRatio`; its body is the call
`return this->getFillRatio();`. The fuel bounds the depth of the calls and
`none` reports that it is used up. -/
def BoundingBox.getFillRatio (b : BoundingBox) : Nat → Option ℚ
  | 0 => none
  | fuel + 1 => b.getFillRatio fuel

/-! ## BoundingBoxVector (`boundingbox.cpp`) -/

/-- The class `BoundingBoxVector`. -/
structure BoundingBoxVector where
  vector : List BoundingBox
  sat : SAT
  area : Nat
  area_set : Bool

/-- The constructor `BoundingBoxVector()`. -/
def BoundingBoxVector.empty : BoundingBoxVector :=
  { vector := [], sat := SAT.empty, area := 0, area_set := false }

/-- The constructor `BoundingBoxVector(sat)`. -/
def BoundingBoxVector.ofSAT (sat : SAT) : BoundingBoxVector :=
  { vector := [], sat := sat, area := 0, area_set := false }

/-- The constructor `BoundingBoxVector(sat, area)`. -/
def BoundingBoxVector.ofSATArea (sat : SAT) (area : Nat) : BoundingBoxVector :=
  { vector := [], sat := sat, area := area, area_set := true }

/-- The `for` loop of `BoundingBoxVector::push(rect, fill_ratio)` over the
boxes not yet visited: the boxes after the loop and the final value of the
local `found`. The second argument is the value `found` holds on entry. -/
def pushLoop (rect : Rect) (fill_ratio : ℚ) : List BoundingBox → Bool → List BoundingBox × Bool
  | [], found => ([], found)
  | b :: rest, _ =>
    let r := b.expandIfIntersect rect fill_ratio
    if r.1 then (r.2 :: rest, r.1)
    else
      let k := pushLoop rect fill_ratio rest r.1
      (r.2 :: k.1, k.2)

/-- The method `BoundingBoxVector::push(rect, fill_ratio)`. The local `found`
is declared without an initialiser and is read after the loop; `found0` is the
indeterminate value it holds when the loop is entered. -/
def BoundingBoxVector.push (v : BoundingBoxVector) (found0 : Bool) (rect : Rect)
    (fill_ratio : ℚ) : BoundingBoxVector :=
  let k := pushLoop rect fill_ratio v.vector found0
  if !k.2 then { v with vector := k.1 ++ [BoundingBox.create rect fill_ratio] }
  else { v with vector := k.1 }

/-- The method `BoundingBoxVector::push(rect)`. -/
def BoundingBoxVector.pushRect (v : BoundingBoxVector) (found0 : Bool) (rect : Rect) :
    Except Fault BoundingBoxVector :=
  if v.area = 0 then .ok (v.push found0 rect ODF_BB_INVALID_FILL_RATIO)
  else
    match (if v.area_set then v.sat.fillRatio rect v.area else v.sat.fillRatioRect rect) with
    | .ok fill_ratio => .ok (v.push found0 rect fill_ratio)
    | .error f => .error f

/-! ## SlidingWindow (`slidingwindow.cpp`) -/

/-- The class `SlidingWindow`. -/
structure SlidingWindow where
  width : Nat
  height : Nat
  area : Nat
  step_x : Nat
  step_y : Nat
  deriving DecidableEq, Repr

/-- The constructor `SlidingWindow(width, height)`. -/
def SlidingWindow.ofSize (width height : Nat) : SlidingWindow :=
  { width := width, height := height, area := width * height,
    step_x := width / 8, step_y := height / 8 }

/-- The constructor `SlidingWindow(width, height, step_x, step_y)`. -/
def SlidingWindow.create (width height step_x step_y : Nat) : SlidingWindow :=
  { width := width, height := height, area := width * height,
    step_x := step_x, step_y := step_y }

/-- How an execution of `run` ended. -/
inductive Status where
  | done
  | outOfFuel
  | fault (f : Fault)
  deriving DecidableEq, Repr

/-- One evaluated window: the rectangle passed to `fillRatio`, the ratio
returned, and whether the window was pushed. -/
structure Eval where
  window : Rect
  fill_ratio : ℚ
  pushed : Bool
  deriving DecidableEq

/-- The state of `run`: the result `bb` and, as a ghost record, the windows
evaluated so far in order. -/
structure RunState where
  bb : BoundingBoxVector
  trace : List Eval

/-- The far-edge computation shared by both loops of `run`:
`br = tl + size; if (br >= limit) { br = limit - 1; if (br <= tl) break; }`.
The result `none` is the `break`. -/
def clampFar (tl : Int) (size : Nat) (limit : Int) : Option Int :=
  let br := tl + (size : Int)
  if br ≥ limit then
    let br := limit - 1
    if br ≤ tl then none else some br
  else some br

/-- The body of the inner loop of `run` once `br.x` is known: build the window,
evaluate it and push it when its ratio exceeds the threshold. `junk k` is the
indeterminate initial value of the local `found` of `push` at the call made
for the window evaluated `k`-th. -/
def SlidingWindow.visit (sw : SlidingWindow) (sat : SAT) (threshold : ℚ) (junk : Nat → Bool)
    (tl br : Point) (st : RunState) : Except Fault RunState :=
  let window := Rect.ofPoints tl br
  match sat.fillRatio window sw.area with
  | .error f => .error f
  | .ok fill_ratio =>
    if fill_ratio > threshold then
      .ok { bb := st.bb.push (junk st.trace.length) window fill_ratio
            trace := st.trace ++ [{ window := window, fill_ratio := fill_ratio, pushed := true }] }
    else
      .ok { bb := st.bb
            trace := st.trace ++ [{ window := window, fill_ratio := fill_ratio, pushed := false }] }

/-- The inner loop of `run`, `for (tl.x = tile.x; tl.x < width; tl.x += step_x)`,
from the current `tl.x` on; `width` is the local `tile.x + tile.width`. -/
def SlidingWindow.scanRow (sw : SlidingWindow) (sat : SAT) (threshold : ℚ) (junk : Nat → Bool)
    (width : Int) (tl_y br_y : Int) : Nat → Int → RunState → Status × RunState
  | 0, _, st => (.outOfFuel, st)
  | fuel + 1, tl_x, st =>
    if tl_x < width then
      match clampFar tl_x sw.width width with
      | none => (.done, st)
      | some br_x =>
        match sw.visit sat threshold junk ⟨tl_x, tl_y⟩ ⟨br_x, br_y⟩ st with
        | .error f => (.fault f, st)
        | .ok st1 => scanRow sw sat threshold junk width tl_y br_y fuel (tl_x + sw.step_x) st1
    else (.done, st)

/-- The outer loop of `run`, `for (tl.y = tile.y; tl.y < height; tl.y += step_y)`,
from the current `tl.y` on; `height` and `width` are the locals
`tile.y + tile.height` and `tile.x + tile.width`, and `inner` is the fuel given
to each run of the inner loop. -/
def SlidingWindow.scanRows (sw : SlidingWindow) (sat : SAT) (threshold : ℚ) (junk : Nat → Bool)
    (tile : Rect) (height width : Int) (inner : Nat) : Nat → Int → RunState → Status × RunState
  | 0, _, st => (.outOfFuel, st)
  | fuel + 1, tl_y, st =>
    if tl_y < height then
      match clampFar tl_y sw.height height with
      | none => (.done, st)
      | some br_y =>
        match sw.scanRow sat threshold junk width tl_y br_y inner tile.x st with
        | (.done, st1) =>
          scanRows sw sat threshold junk tile height width inner fuel (tl_y + sw.step_y) st1
        | other => other
    else (.done, st)

/-- The method `SlidingWindow::run(mask, threshold, tile)`. -/
def SlidingWindow.run (sw : SlidingWindow) (fuel : Nat) (junk : Nat → Bool) (mask : Mat)
    (threshold : ℚ) (tile : Rect) : Status × RunState :=
  let bb := BoundingBoxVector.empty
  match SAT.build mask with
  | .error f => (.fault f, { bb := bb, trace := [] })
  | .ok sat =>
    let height := tile.y + tile.height
    let width := tile.x + tile.width
    sw.scanRows sat threshold junk tile height width fuel fuel tile.y { bb := bb, trace := [] }

/-- The method `SlidingWindow::run(mask, threshold)`. -/
def SlidingWindow.runMask (sw : SlidingWindow) (fuel : Nat) (junk : Nat → Bool) (mask : Mat)
    (threshold : ℚ) : Status × RunState :=
  sw.run fuel junk mask threshold { x := 0, y := 0, width := mask.cols, height := mask.rows }

/-! ## Specification-side notions for masks -/

/-- The mask is a strict two-valued raster: every pixel is 0 or 255. -/
def Mat.Binary (m : Mat) : Prop :=
  ∀ r c, r < m.rows → c < m.cols → m.px r c = 0 ∨ m.px r c = 255

/-- The rectangle has non-negative size and lies fully inside the mask. -/
def Rect.InMask (r : Rect) (m : Mat) : Prop :=
  0 ≤ r.x ∧ 0 ≤ r.y ∧ 0 ≤ r.width ∧ 0 ≤ r.height ∧
  r.x + r.width ≤ m.cols ∧ r.y + r.height ≤ m.rows

instance (r : Rect) (m : Mat) : Decidable (r.InMask m) := by
  unfold Rect.InMask; infer_instance

/-- Number of pixels equal to 255 in rows `[r0, r1)` and columns `[c0, c1)`. -/
def Mat.onCount (m : Mat) (r0 r1 c0 c1 : Nat) : Nat :=
  ((Finset.Ico r0 r1 ×ˢ Finset.Ico c0 c1).filter (fun p => m.px p.1 p.2 = 255)).card

/-- Number of pixels equal to 255 inside the rectangle. -/
def Mat.onPixels (m : Mat) (r : Rect) : Nat :=
  m.onCount r.y.toNat (r.y + r.height).toNat r.x.toNat (r.x + r.width).toNat

/-! ## Specification-side notions for the scan -/

/-- The pixel at row `row` and column `col` lies inside the rectangle. -/
def Rect.Covers (r : Rect) (row col : Int) : Prop :=
  r.x ≤ col ∧ col < r.x + r.width ∧ r.y ≤ row ∧ row < r.y + r.height

instance (r : Rect) (row col : Int) : Decidable (r.Covers row col) := by
  unfold Rect.Covers; infer_instance

/-- The pushes a trace records, performed in order on `bb`; the entry at
position `k` of the whole trace uses `junk k`. -/
def replayFrom (junk : Nat → Bool) : Nat → List Eval → BoundingBoxVector → BoundingBoxVector
  | _, [], bb => bb
  | k, e :: es, bb =>
    replayFrom junk (k + 1) es
      (if e.pushed then bb.push (junk k) e.window e.fill_ratio else bb)

/-! ## Specification-side notions for boxes -/

/-- Area of the geometric intersection of two rectangles: the overlap of the
horizontal extents times the overlap of the vertical extents, each taken as 0
when the extents do not overlap. -/
def Rect.overlapArea (a b : Rect) : Int :=
  max 0 (min (a.x + a.width) (b.x + b.width) - max a.x b.x) *
    max 0 (min (a.y + a.height) (b.y + b.height) - max a.y b.y)

/-- A sequence of `push(rect, fill_ratio)` calls, applied from left to right;
the call numbered `k` finds `junk k` in its local `found`. -/
def BoundingBoxVector.pushAll (junk : Nat → Bool) :
    Nat → List (Rect × ℚ) → BoundingBoxVector → BoundingBoxVector
  | _, [], v => v
  | k, c :: cs, v => pushAll junk (k + 1) cs (v.push (junk k) c.1 c.2)

/-- Sum of the mask divided by 255 over rows `[r0, r1)` and columns `[c0, c1)`:
what the rectangle sum of the integral image stands for on any 8-bit mask. -/
def Mat.sumOn (m : Mat) (r0 r1 c0 c1 : Nat) : Nat :=
  ∑ i ∈ Finset.Ico r0 r1, ∑ j ∈ Finset.Ico c0 c1, div255 (m.px i j)

/-- Sum of the mask divided by 255 over the pixels of a rectangle. -/
def Mat.rectSum (m : Mat) (r : Rect) : Nat :=
  m.sumOn r.y.toNat (r.y + r.height).toNat r.x.toNat (r.x + r.width).toNat

/-! ## Rounding of `double` results

The exact quotient stands for the `double` a division returns wherever a claim
looks at one result at a time. Where results of separate `double` operations
are compared, the rounding of each operation is made explicit with
`roundDouble`. -/

/-- Floor of the binary logarithm of a positive natural number; the first
argument bounds the number of halvings. -/
def floorLog2 : Nat → Nat → Nat
  | 0, _ => 0
  | fuel + 1, n => if n ≥ 2 then floorLog2 fuel (n / 2) + 1 else 0

/-- The exponent `e` with `2^e ≤ q < 2^(e+1)`, for a positive rational `q`. -/
def binade (q : ℚ) : Int :=
  if 1 ≤ q then (floorLog2 ⌊q⌋.toNat ⌊q⌋.toNat : Int)
  else
    let n := ⌈1 / q⌉.toNat
    if n ≤ 1 then 0 else -((floorLog2 n (n - 1) + 1 : Nat) : Int)

/-- Nearest multiple of `2^e` to a non-negative rational, ties to the even
multiple. -/
def roundToMultiple (q : ℚ) (e : Int) : ℚ :=
  let s := q / (2 : ℚ) ^ e
  let f := ⌊s⌋
  let r := s - f
  let m := if r < 1 / 2 then f else if 1 / 2 < r then f + 1 else if f % 2 = 0 then f else f + 1
  (m : ℚ) * (2 : ℚ) ^ e

/-- IEEE 754 binary64 rounding (nearest, ties to even) of a rational within
the normal range: the result keeps 53 significant bits. -/
def roundDouble (q : ℚ) : ℚ :=
  if q = 0 then 0
  else if 0 < q then roundToMultiple q (binade q - 52)
  else -roundToMultiple (-q) (binade (-q) - 52)

/-- The `double` returned by `SAT::fillRatio(rect, area)`: the product
`sum * 100.0` is exact and the division rounds once. -/
def SAT.fillRatioDouble (s : SAT) (rect : Rect) (area : Nat) : Except Fault ℚ :=
  match s.fillRatio rect area with
  | .ok q => .ok (roundDouble q)
  | .error f => .error f

/-- The `double` sum `x + y` of two `double` values. -/
def addDouble (x y : ℚ) : ℚ := roundDouble (x + y)

/-! ## Image (`image.cpp`): file names -/

/-- The part of the class `Image` that the file-name methods use; strings are
lists of characters. -/
structure Image where
  filename : List Char
  path : List Char
  name : List Char
  is_opened : Bool
  deriving DecidableEq

/-- The call `s.find_last_of("/\\")`: the last position holding a slash or a
backslash. -/
def findLastSeparator (s : List Char) : Option Nat :=
  (List.range s.length).reverse.find? (fun i => s.get? i = some '/' ∨ s.get? i = some '\\')

/-- The constructor `Image::Image(filename)`. -/
def Image.create (filename : List Char) : Image :=
  match findLastSeparator filename with
  | none => { filename := filename, path := [], name := filename, is_opened := false }
  | some pos =>
    { filename := filename, path := filename.take pos, name := filename.drop (pos + 1),
      is_opened := false }

/-- The method `Image::getName`. -/
def Image.getName (img : Image) : List Char := img.name

/-- The method `Image::getPath`; its body is `return this->name;`. -/
def Image.getPath (img : Image) : List Char := img.name

/-- The call `s.find(c, pos)`: the first position from `pos` on that holds `c`. -/
def findFrom (c : Char) (s : List Char) (pos : Nat) : Option Nat :=
  ((List.range s.length).drop pos).find? (fun i => s.get? i = some c)

/-- The call `s.replace(pos, 2, r)`. -/
def replaceTwo (s : List Char) (pos : Nat) (r : List Char) : List Char :=
  s.take pos ++ r ++ s.drop (pos + 2)

/-- One pass through the body of the `while` loop of `Image::save` at the
position `pos` of a `%`: the `switch` on `filename[pos + 1]` (past the end of
the string no case applies). -/
def saveSwitch (img : Image) (filename : List Char) (pos : Nat) : List Char :=
  match filename.get? (pos + 1) with
  | some 'n' => replaceTwo filename pos img.name
  | some 'p' => replaceTwo filename pos img.path
  | some '%' => replaceTwo filename pos ['%']
  | _ => filename

/-- The `while` loop of `Image::save` from the position `pos` of a `%` on:
the file name passed to `cv::imwrite`, or `none` when the fuel is used up. -/
def saveLoop (img : Image) : Nat → List Char → Nat → Option (List Char)
  | 0, _, _ => none
  | fuel + 1, filename, pos =>
    let filename1 := saveSwitch img filename pos
    match findFrom '%' filename1 pos with
    | none => some filename1
    | some pos1 => saveLoop img fuel filename1 pos1

/-- The expansion of the pattern in `Image::save(filename)`, for an opened
image: the file name passed to `cv::imwrite`. -/
def Image.saveName (img : Image) (fuel : Nat) (filename : List Char) : Option (List Char) :=
  match findFrom '%' filename 0 with
  | none => some filename
  | some pos => saveLoop img fuel filename pos

/-! ## Concrete inputs used in examples -/

/-- The file name `dir/a.png`. -/
def sampleFile : List Char := ['d', 'i', 'r', '/', 'a', '.', 'p', 'n', 'g']

/-- An 11x11 mask of type `CV_8U` with every pixel on. -/
def mask11x11 : Mat := { type := CV_8U, rows := 11, cols := 11, px := fun _ _ => 255 }

/-- A 10x10 mask of type `CV_8U` whose pixels are on in the first eight rows
and columns and off elsewhere. -/
def mask10x10Corner : Mat :=
  { type := CV_8U, rows := 10, cols := 10, px := fun r c => if r < 8 ∧ c < 8 then 255 else 0 }

/-- A mask of one row and five columns of type `CV_8U` with every pixel on. -/
def mask1x5 : Mat := { type := CV_8U, rows := 1, cols := 5, px := fun _ _ => 255 }

/-- A 4x4 mask of type `CV_8U` with every pixel on. -/
def mask4x4 : Mat := { type := CV_8U, rows := 4, cols := 4, px := fun _ _ => 255 }

/-- A 2x2 mask of type `CV_8U` with every pixel on. -/
def mask2x2 : Mat := { type := CV_8U, rows := 2, cols := 2, px := fun _ _ => 255 }

/-- A 10x10 mask of type `CV_8U` with every pixel on. -/
def mask10x10 : Mat := { type := CV_8U, rows := 10, cols := 10, px := fun _ _ => 255 }

/-- A 1x1 mask of type `CV_8U` whose only pixel has the grey value 100. -/
def maskGrey : Mat := { type := CV_8U, rows := 1, cols := 1, px := fun _ _ => 100 }

/-! ## Lemmas -/

theorem rowSum_eq_sum (f : Nat → Nat → Nat) (r c : Nat) :
    rowSum f r c = ∑ j ∈ Finset.range c, f r j := by
  induction c with
  | zero => simp [rowSum]
  | succ c ih => rw [rowSum, ih, Finset.sum_range_succ]

theorem integralCell_eq_sum (f : Nat → Nat → Nat) (r c : Nat) :
    integralCell f r c = ∑ i ∈ Finset.range r, ∑ j ∈ Finset.range c, f i j := by
  induction r with
  | zero => simp [integralCell]
  | succ r ih => rw [integralCell, ih, rowSum_eq_sum, Finset.sum_range_succ]

/-- Inclusion-exclusion over four cells of the integral image. -/
theorem integralCell_four (f : Nat → Nat → Nat) {y1 y2 x1 x2 : Nat} (hy : y1 ≤ y2)
    (hx : x1 ≤ x2) :
    (integralCell f y2 x2 : Int) - integralCell f y2 x1 - integralCell f y1 x2
        + integralCell f y1 x1
      = ((∑ i ∈ Finset.Ico y1 y2, ∑ j ∈ Finset.Ico x1 x2, f i j : Nat) : Int) := by
  simp only [integralCell_eq_sum]
  push_cast
  rw [Finset.sum_Ico_eq_sub _ hy]
  simp only [Finset.sum_Ico_eq_sub _ hx, Finset.sum_sub_distrib]
  ring

theorem div255_binary {v : Nat} (h : v = 0 ∨ v = 255) :
    div255 v = if v = 255 then 1 else 0 := by
  rcases h with h | h <;> subst h <;> decide

theorem onCount_eq_sum (m : Mat) (r0 r1 c0 c1 : Nat) :
    m.onCount r0 r1 c0 c1
      = ∑ i ∈ Finset.Ico r0 r1, ∑ j ∈ Finset.Ico c0 c1, if m.px i j = 255 then 1 else 0 := by
  unfold Mat.onCount
  rw [Finset.card_filter, Finset.sum_product]

theorem sum_div255_eq_onCount (m : Mat) (hb : m.Binary) {r0 r1 c0 c1 : Nat}
    (hr : r1 ≤ m.rows) (hc : c1 ≤ m.cols) :
    ∑ i ∈ Finset.Ico r0 r1, ∑ j ∈ Finset.Ico c0 c1, div255 (m.px i j)
      = m.onCount r0 r1 c0 c1 := by
  rw [onCount_eq_sum]
  refine Finset.sum_congr rfl (fun i hi => Finset.sum_congr rfl (fun j hj => ?_))
  rw [Finset.mem_Ico] at hi hj
  exact div255_binary (hb i j (by omega) (by omega))

theorem integral_get (m : Mat) {y x : Int} (hy0 : 0 ≤ y) (hy : y ≤ m.rows) (hx0 : 0 ≤ x)
    (hx : x ≤ m.cols) :
    (integral m).get y x
      = some (integralCell (fun i j => div255 (m.px i j)) y.toNat x.toNat : Int) := by
  unfold IntMat.get integral
  have h : 0 ≤ y ∧ y < ((m.rows + 1 : Nat) : Int) ∧ 0 ≤ x ∧ x < ((m.cols + 1 : Nat) : Int) := by
    refine ⟨hy0, ?_, hx0, ?_⟩ <;> push_cast <;> omega
  simp only [h, and_self, if_true]

/-- The rectangle sum read from the table is the number of on-pixels. -/
theorem fillRatio_of_inMask (m : Mat) (hb : m.Binary) (rect : Rect) (hin : rect.InMask m)
    (area : Nat) (ha : 0 < area) :
    SAT.fillRatio { sat := integral m, have_sat := true } rect area
      = .ok (100 * (m.onPixels rect : ℚ) / (area : ℚ)) := by
  obtain ⟨hx0, hy0, hw0, hh0, hx1, hy1⟩ := hin
  have e1 := integral_get m (y := rect.y + rect.height) (x := rect.x + rect.width)
    (by omega) hy1 (by omega) hx1
  have e2 := integral_get m (y := rect.y + rect.height) (x := rect.x)
    (by omega) hy1 hx0 (by omega)
  have e3 := integral_get m (y := rect.y) (x := rect.x + rect.width)
    hy0 (by omega) (by omega) hx1
  have e4 := integral_get m (y := rect.y) (x := rect.x) hy0 (by omega) hx0 (by omega)
  have hya : rect.y.toNat ≤ (rect.y + rect.height).toNat := by omega
  have hxa : rect.x.toNat ≤ (rect.x + rect.width).toNat := by omega
  have hr : (rect.y + rect.height).toNat ≤ m.rows := by omega
  have hc : (rect.x + rect.width).toNat ≤ m.cols := by omega
  have hsum := integralCell_four (fun i j => div255 (m.px i j)) hya hxa
  rw [sum_div255_eq_onCount m hb hr hc] at hsum
  have hne : area ≠ 0 := by omega
  simp only [SAT.fillRatio, Bool.not_true, Bool.false_eq_true, if_false, e1, e2, e3, e4, hne]
  rw [hsum]
  simp only [Mat.onPixels, Int.cast_natCast]
  congr 1
  ring

/-- What a successful `visit` does to the state. -/
theorem visit_ok {sw : SlidingWindow} {sat : SAT} {threshold : ℚ} {junk : Nat → Bool}
    {tl br : Point} {st st1 : RunState}
    (h : sw.visit sat threshold junk tl br st = .ok st1) :
    ∃ f, sat.fillRatio (Rect.ofPoints tl br) sw.area = .ok f ∧
      st1.trace = st.trace ++
        [{ window := Rect.ofPoints tl br, fill_ratio := f, pushed := decide (f > threshold) }] ∧
      st1.bb = (if f > threshold
        then st.bb.push (junk st.trace.length) (Rect.ofPoints tl br) f else st.bb) := by
  unfold SlidingWindow.visit at h
  simp only at h
  cases hf : sat.fillRatio (Rect.ofPoints tl br) sw.area with
  | error e => rw [hf] at h; simp at h
  | ok f =>
    rw [hf] at h
    refine ⟨f, rfl, ?_⟩
    by_cases hgt : f > threshold
    · simp only [hgt, if_true, Except.ok.injEq] at h
      subst h
      simp [hgt]
    · simp only [hgt, if_false, Except.ok.injEq] at h
      subst h
      simp [hgt]

/-- Facts about a far edge that was not a `break`. -/
theorem clampFar_some {tl : Int} {size : Nat} {limit br : Int} (hs : 1 ≤ size)
    (h : clampFar tl size limit = some br) :
    tl < br ∧ br ≤ tl + size ∧ br ≤ limit - 1 := by
  unfold clampFar at h
  simp only at h
  split at h
  · split at h
    · exact absurd h (by simp)
    · simp only [Option.some.injEq] at h; omega
  · simp only [Option.some.injEq] at h; omega

/-- Invariant rule for the inner loop: a property of the state that every
window evaluation preserves holds of the final state, however the loop ends. -/
theorem scanRow_inv (sw : SlidingWindow) (sat : SAT) (threshold : ℚ) (junk : Nat → Bool)
    (width tl_y br_y lo : Int) (I : RunState → Prop)
    (hstep : ∀ (tl_x br_x : Int) (st st1 : RunState), lo ≤ tl_x → tl_x < width →
      clampFar tl_x sw.width width = some br_x → I st →
      sw.visit sat threshold junk ⟨tl_x, tl_y⟩ ⟨br_x, br_y⟩ st = .ok st1 → I st1) :
    ∀ (fuel : Nat) (tl_x : Int) (st : RunState), lo ≤ tl_x → I st →
      I (sw.scanRow sat threshold junk width tl_y br_y fuel tl_x st).2 := by
  intro fuel
  induction fuel with
  | zero => intro tl_x st _ hst; simpa [SlidingWindow.scanRow] using hst
  | succ fuel ih =>
    intro tl_x st hlo hst
    rw [SlidingWindow.scanRow]
    split
    · rename_i hlt
      cases hc : clampFar tl_x sw.width width with
      | none => simpa using hst
      | some br_x =>
        simp only
        cases hv : sw.visit sat threshold junk ⟨tl_x, tl_y⟩ ⟨br_x, br_y⟩ st with
        | error e => simpa using hst
        | ok st1 =>
          simp only
          exact ih (tl_x + sw.step_x) st1 (by omega) (hstep tl_x br_x st st1 hlo hlt hc hst hv)
    · simpa using hst

/-- Invariant rule for the loop over the rows. -/
theorem scanRows_inv (sw : SlidingWindow) (sat : SAT) (threshold : ℚ) (junk : Nat → Bool)
    (tile : Rect) (height width lo : Int) (inner : Nat) (I : RunState → Prop)
    (hstep : ∀ (tl_y br_y tl_x br_x : Int) (st st1 : RunState), lo ≤ tl_y → tl_y < height →
      clampFar tl_y sw.height height = some br_y →
      tile.x ≤ tl_x → tl_x < width →
      clampFar tl_x sw.width width = some br_x → I st →
      sw.visit sat threshold junk ⟨tl_x, tl_y⟩ ⟨br_x, br_y⟩ st = .ok st1 → I st1) :
    ∀ (fuel : Nat) (tl_y : Int) (st : RunState), lo ≤ tl_y → I st →
      I (sw.scanRows sat threshold junk tile height width inner fuel tl_y st).2 := by
  intro fuel
  induction fuel with
  | zero => intro tl_y st _ hst; simpa [SlidingWindow.scanRows] using hst
  | succ fuel ih =>
    intro tl_y st hlo hst
    rw [SlidingWindow.scanRows]
    split
    · rename_i hlt
      cases hc : clampFar tl_y sw.height height with
      | none => simpa using hst
      | some br_y =>
        simp only
        have hrow := scanRow_inv sw sat threshold junk width tl_y br_y tile.x I
          (fun tl_x br_x st st1 h1 h2 h3 h4 h5 =>
            hstep tl_y br_y tl_x br_x st st1 hlo hlt hc h1 h2 h3 h4 h5)
          inner tile.x st (le_refl _) hst
        cases hr : sw.scanRow sat threshold junk width tl_y br_y inner tile.x st with
        | mk s st1 =>
          rw [hr] at hrow
          cases s with
          | done => exact ih (tl_y + sw.step_y) st1 (by omega) hrow
          | outOfFuel => exact hrow
          | fault e => exact hrow
    · simpa using hst

/-- Invariant rule for `run`: a property of the initial state that every
window evaluation preserves holds of the state `run` ends in. -/
theorem run_inv (sw : SlidingWindow) (fuel : Nat) (junk : Nat → Bool) (mask : Mat)
    (threshold : ℚ) (tile : Rect) (I : RunState → Prop)
    (hinit : I { bb := BoundingBoxVector.empty, trace := [] })
    (hstep : ∀ (tl_y br_y tl_x br_x : Int) (st st1 : RunState), mask.type = CV_8U →
      tile.y ≤ tl_y → tl_y < tile.y + tile.height →
      clampFar tl_y sw.height (tile.y + tile.height) = some br_y →
      tile.x ≤ tl_x → tl_x < tile.x + tile.width →
      clampFar tl_x sw.width (tile.x + tile.width) = some br_x → I st →
      sw.visit { sat := integral mask, have_sat := true } threshold junk
        ⟨tl_x, tl_y⟩ ⟨br_x, br_y⟩ st = .ok st1 → I st1) :
    I (sw.run fuel junk mask threshold tile).2 := by
  unfold SlidingWindow.run SAT.build
  by_cases ht : mask.type = CV_8U
  · simp only [ht, ne_eq, not_true_eq_false, if_false]
    exact scanRows_inv sw _ threshold junk tile _ _ tile.y fuel I
      (fun tl_y br_y tl_x br_x st st1 h1 h2 h3 h4 h5 h6 h7 h8 =>
        hstep tl_y br_y tl_x br_x st st1 ht h1 h2 h3 h4 h5 h6 h7 h8)
      fuel tile.y _ (le_refl _) hinit
  · simpa [ht] using hinit

/-- Invariant rule for the windows of `run`: a property that each evaluation
establishes for the window it records holds of every recorded window. -/
theorem run_trace (sw : SlidingWindow) (fuel : Nat) (junk : Nat → Bool) (mask : Mat)
    (threshold : ℚ) (tile : Rect) (P : Eval → Prop)
    (hnew : ∀ (tl_y br_y tl_x br_x : Int) (f : ℚ), mask.type = CV_8U →
      tile.y ≤ tl_y → tl_y < tile.y + tile.height →
      clampFar tl_y sw.height (tile.y + tile.height) = some br_y →
      tile.x ≤ tl_x → tl_x < tile.x + tile.width →
      clampFar tl_x sw.width (tile.x + tile.width) = some br_x →
      SAT.fillRatio { sat := integral mask, have_sat := true }
        (Rect.ofPoints ⟨tl_x, tl_y⟩ ⟨br_x, br_y⟩) sw.area = .ok f →
      P { window := Rect.ofPoints ⟨tl_x, tl_y⟩ ⟨br_x, br_y⟩, fill_ratio := f,
          pushed := decide (f > threshold) }) :
    ∀ e ∈ (sw.run fuel junk mask threshold tile).2.trace, P e := by
  apply run_inv sw fuel junk mask threshold tile (fun st => ∀ e ∈ st.trace, P e)
  · simp
  · intro tl_y br_y tl_x br_x st st1 ht h1 h2 h3 h4 h5 h6 hst hv e he
    obtain ⟨f, hf, htr, _⟩ := visit_ok hv
    rw [htr, List.mem_append, List.mem_singleton] at he
    rcases he with he | he
    · exact hst e he
    · subst he
      exact hnew tl_y br_y tl_x br_x f ht h1 h2 h3 h4 h5 h6 hf

/-- The windows `run` evaluates lie in the region, end before its last row and
column, and are at least one pixel and at most the configured size in each
direction. -/
theorem run_window_geometry (sw : SlidingWindow) (hw : 1 ≤ sw.width) (hh : 1 ≤ sw.height)
    (fuel : Nat) (junk : Nat → Bool) (mask : Mat) (threshold : ℚ) (tile : Rect) :
    ∀ e ∈ (sw.run fuel junk mask threshold tile).2.trace,
      tile.x ≤ e.window.x ∧ tile.y ≤ e.window.y ∧
      e.window.x + e.window.width ≤ tile.x + tile.width - 1 ∧
      e.window.y + e.window.height ≤ tile.y + tile.height - 1 ∧
      1 ≤ e.window.width ∧ e.window.width ≤ sw.width ∧
      1 ≤ e.window.height ∧ e.window.height ≤ sw.height := by
  apply run_trace
  intro tl_y br_y tl_x br_x f _ h1 _ h3 h4 _ h6 _
  have hy := clampFar_some hh h3
  have hx := clampFar_some hw h6
  simp only [Rect.ofPoints]
  rw [min_eq_left (le_of_lt hx.1), min_eq_left (le_of_lt hy.1),
    max_eq_right (le_of_lt hx.1), max_eq_right (le_of_lt hy.1)]
  omega

theorem replayFrom_append (junk : Nat → Bool) (xs : List Eval) (e : Eval) :
    ∀ (k : Nat) (bb : BoundingBoxVector),
      replayFrom junk k (xs ++ [e]) bb
        = (if e.pushed
            then (replayFrom junk k xs bb).push (junk (k + xs.length)) e.window e.fill_ratio
            else replayFrom junk k xs bb) := by
  induction xs with
  | nil => intro k bb; simp [replayFrom]
  | cons x xs ih =>
    intro k bb
    have hk : k + 1 + xs.length = k + (xs.length + 1) := by omega
    rw [List.cons_append, replayFrom, ih, List.length_cons, hk, replayFrom]

/-- The result of `run` is obtained by performing, in order, exactly the pushes
its trace records. -/
theorem run_bb_eq_replay (sw : SlidingWindow) (fuel : Nat) (junk : Nat → Bool) (mask : Mat)
    (threshold : ℚ) (tile : Rect) :
    (sw.run fuel junk mask threshold tile).2.bb
      = replayFrom junk 0 (sw.run fuel junk mask threshold tile).2.trace
          BoundingBoxVector.empty := by
  apply run_inv sw fuel junk mask threshold tile
    (fun st => st.bb = replayFrom junk 0 st.trace BoundingBoxVector.empty)
  · rfl
  · intro tl_y br_y tl_x br_x st st1 _ _ _ _ _ _ _ hst hv
    obtain ⟨f, _, htr, hbb⟩ := visit_ok hv
    rw [htr, replayFrom_append, hbb, ← hst]
    by_cases hgt : f > threshold <;> simp [hgt]

/-- Every window `run` evaluates lies inside the mask when the region does. -/
theorem run_window_inMask (sw : SlidingWindow) (hw : 1 ≤ sw.width) (hh : 1 ≤ sw.height)
    (fuel : Nat) (junk : Nat → Bool) (mask : Mat) (threshold : ℚ) (tile : Rect)
    (htile : tile.InMask mask) :
    ∀ e ∈ (sw.run fuel junk mask threshold tile).2.trace, e.window.InMask mask := by
  intro e he
  have hg := run_window_geometry sw hw hh fuel junk mask threshold tile e he
  obtain ⟨hx0, hy0, _, _, hx1, hy1⟩ := htile
  refine ⟨?_, ?_, ?_, ?_, ?_, ?_⟩ <;> omega

/-- The ratio and the push decision recorded for every evaluated window. -/
theorem run_eval_ratio (sw : SlidingWindow) (hw : 1 ≤ sw.width) (hh : 1 ≤ sw.height)
    (harea : sw.area = sw.width * sw.height)
    (fuel : Nat) (junk : Nat → Bool) (mask : Mat) (hb : mask.Binary) (threshold : ℚ)
    (tile : Rect) (htile : tile.InMask mask) :
    ∀ e ∈ (sw.run fuel junk mask threshold tile).2.trace,
      e.fill_ratio = 100 * (mask.onPixels e.window : ℚ) / ((sw.width * sw.height : Nat) : ℚ) ∧
      (e.pushed = true ↔ e.fill_ratio > threshold) := by
  have hboth : ∀ e ∈ (sw.run fuel junk mask threshold tile).2.trace,
      e.window.InMask mask ∧
        SAT.fillRatio { sat := integral mask, have_sat := true } e.window sw.area
          = .ok e.fill_ratio ∧ e.pushed = decide (e.fill_ratio > threshold) := by
    intro e he
    refine ⟨run_window_inMask sw hw hh fuel junk mask threshold tile htile e he, ?_⟩
    revert e
    apply run_trace
    intro tl_y br_y tl_x br_x f _ _ _ _ _ _ _ hf
    exact ⟨hf, rfl⟩
  intro e he
  obtain ⟨hin, hf, hp⟩ := hboth e he
  have hpos : 0 < sw.area := by
    rw [harea]; exact Nat.mul_pos hw hh
  rw [fillRatio_of_inMask mask hb e.window hin sw.area hpos, harea] at hf
  refine ⟨(Except.ok.inj hf).symm, ?_⟩
  rw [hp]; simp

/-! ### A scan with a zero stride -/

/-- A query whose four lookups are inside the table and whose reference area
is not zero returns a value. -/
theorem fillRatio_ok_of_inMask (m : Mat) (rect : Rect) (hin : rect.InMask m)
    (area : Nat) (ha : 0 < area) :
    ∃ f, SAT.fillRatio { sat := integral m, have_sat := true } rect area = .ok f := by
  obtain ⟨hx0, hy0, hw0, hh0, hx1, hy1⟩ := hin
  have e1 := integral_get m (y := rect.y + rect.height) (x := rect.x + rect.width)
    (by omega) hy1 (by omega) hx1
  have e2 := integral_get m (y := rect.y + rect.height) (x := rect.x)
    (by omega) hy1 hx0 (by omega)
  have e3 := integral_get m (y := rect.y) (x := rect.x + rect.width)
    hy0 (by omega) (by omega) hx1
  have e4 := integral_get m (y := rect.y) (x := rect.x) hy0 (by omega) hx0 (by omega)
  have hne : area ≠ 0 := by omega
  simp only [SAT.fillRatio, Bool.not_true, Bool.false_eq_true, if_false, e1, e2, e3, e4, hne]
  exact ⟨_, rfl⟩

theorem visit_ok_of_fillRatio {sw : SlidingWindow} {sat : SAT} {threshold : ℚ}
    {junk : Nat → Bool} {tl br : Point} {f : ℚ}
    (hf : sat.fillRatio (Rect.ofPoints tl br) sw.area = .ok f) (st : RunState) :
    ∃ st1, sw.visit sat threshold junk tl br st = .ok st1 := by
  unfold SlidingWindow.visit
  simp only [hf]
  split
  · exact ⟨_, rfl⟩
  · exact ⟨_, rfl⟩

/-- With a zero horizontal stride the inner loop never leaves a position at
which a window is evaluated: whatever the fuel, it is used up. -/
theorem scanRow_stuck (sw : SlidingWindow) (sat : SAT) (threshold : ℚ) (junk : Nat → Bool)
    (width tl_y br_y tl_x br_x : Int) (hstep : sw.step_x = 0) (hlt : tl_x < width)
    (hc : clampFar tl_x sw.width width = some br_x)
    (hv : ∀ st, ∃ st1, sw.visit sat threshold junk ⟨tl_x, tl_y⟩ ⟨br_x, br_y⟩ st = .ok st1) :
    ∀ (fuel : Nat) (st : RunState),
      (sw.scanRow sat threshold junk width tl_y br_y fuel tl_x st).1 = Status.outOfFuel := by
  intro fuel
  induction fuel with
  | zero => intro st; rfl
  | succ fuel ih =>
    intro st
    obtain ⟨st1, hst1⟩ := hv st
    rw [SlidingWindow.scanRow]
    simp only [hlt, if_true, hc, hst1, hstep, Nat.cast_zero, add_zero]
    exact ih st1

/-- A scan with a zero horizontal stride over a region of at least 2x2 pixels
inside a `CV_8U` mask does not terminate. -/
theorem run_diverges_of_step_x_zero (sw : SlidingWindow) (hw : 1 ≤ sw.width)
    (hh : 1 ≤ sw.height) (harea : 0 < sw.area) (hstep : sw.step_x = 0)
    (junk : Nat → Bool) (mask : Mat) (htype : mask.type = CV_8U) (threshold : ℚ)
    (tile : Rect) (htile : tile.InMask mask) (htw : 2 ≤ tile.width) (hth : 2 ≤ tile.height)
    (fuel : Nat) :
    (sw.run fuel junk mask threshold tile).1 = Status.outOfFuel := by
  unfold SlidingWindow.run SAT.build
  simp only [htype, ne_eq, not_true_eq_false, if_false]
  cases fuel with
  | zero => rfl
  | succ fuel =>
    rw [SlidingWindow.scanRows]
    have hlty : tile.y < tile.y + tile.height := by omega
    have hltx : tile.x < tile.x + tile.width := by omega
    simp only [hlty, if_true]
    cases hcy : clampFar tile.y sw.height (tile.y + tile.height) with
    | none =>
      exfalso
      unfold clampFar at hcy
      simp only at hcy
      split at hcy
      · split at hcy
        · omega
        · exact absurd hcy (by simp)
      · exact absurd hcy (by simp)
    | some br_y =>
      cases hcx : clampFar tile.x sw.width (tile.x + tile.width) with
      | none =>
        exfalso
        unfold clampFar at hcx
        simp only at hcx
        split at hcx
        · split at hcx
          · omega
          · exact absurd hcx (by simp)
        · exact absurd hcx (by simp)
      | some br_x =>
        have hy := clampFar_some hh hcy
        have hx := clampFar_some hw hcx
        obtain ⟨hx0, hy0, _, _, hx1, hy1⟩ := htile
        have hin : (Rect.ofPoints ⟨tile.x, tile.y⟩ ⟨br_x, br_y⟩).InMask mask := by
          simp only [Rect.InMask, Rect.ofPoints]
          rw [min_eq_left (le_of_lt hx.1), min_eq_left (le_of_lt hy.1),
            max_eq_right (le_of_lt hx.1), max_eq_right (le_of_lt hy.1)]
          refine ⟨?_, ?_, ?_, ?_, ?_, ?_⟩ <;> omega
        obtain ⟨f, hf⟩ := fillRatio_ok_of_inMask mask _ hin sw.area harea
        have hstuck := scanRow_stuck sw { sat := integral mask, have_sat := true } threshold
          junk (tile.x + tile.width) tile.y br_y tile.x br_x hstep hltx hcx
          (fun st => visit_ok_of_fillRatio hf st) (fuel + 1)
          { bb := BoundingBoxVector.empty, trace := [] }
        simp only
        cases hr : sw.scanRow { sat := integral mask, have_sat := true } threshold junk
            (tile.x + tile.width) tile.y br_y (fuel + 1) tile.x
            { bb := BoundingBoxVector.empty, trace := [] } with
        | mk s st1 =>
          rw [hr] at hstuck
          simp only at hstuck
          subst hstuck
          rfl

/-! ### Termination of the scan for positive strides -/

/-- With a positive horizontal stride and every evaluation succeeding, the
inner loop ends once the fuel exceeds the distance to the right edge. -/
theorem scanRow_done (sw : SlidingWindow) (sat : SAT) (threshold : ℚ) (junk : Nat → Bool)
    (width tl_y br_y lo : Int) (hstep : 1 ≤ sw.step_x)
    (hv : ∀ (tl_x br_x : Int) (st : RunState), lo ≤ tl_x → tl_x < width →
      clampFar tl_x sw.width width = some br_x →
      ∃ st1, sw.visit sat threshold junk ⟨tl_x, tl_y⟩ ⟨br_x, br_y⟩ st = .ok st1) :
    ∀ (fuel : Nat) (tl_x : Int) (st : RunState), lo ≤ tl_x → width - tl_x ≤ fuel →
      (sw.scanRow sat threshold junk width tl_y br_y (fuel + 1) tl_x st).1 = Status.done := by
  intro fuel
  induction fuel with
  | zero =>
    intro tl_x st _ hd
    rw [SlidingWindow.scanRow]
    have : ¬ tl_x < width := by simp only [Nat.cast_zero] at hd; omega
    simp only [this, if_false]
  | succ fuel ih =>
    intro tl_x st hlo hd
    rw [SlidingWindow.scanRow]
    split
    · rename_i hlt
      cases hc : clampFar tl_x sw.width width with
      | none => rfl
      | some br_x =>
        obtain ⟨st1, hst1⟩ := hv tl_x br_x st hlo hlt hc
        simp only [hst1]
        apply ih (tl_x + sw.step_x) st1 (by omega)
        push_cast at hd
        have : (1 : Int) ≤ (sw.step_x : Int) := by exact_mod_cast hstep
        omega
    · rfl

/-- With positive strides and every evaluation succeeding, the loop over the
rows ends once the fuel exceeds the distance to the bottom edge. -/
theorem scanRows_done (sw : SlidingWindow) (sat : SAT) (threshold : ℚ) (junk : Nat → Bool)
    (tile : Rect) (height width lo : Int) (inner : Nat) (hsx : 1 ≤ sw.step_x)
    (hsy : 1 ≤ sw.step_y) (hinner : width - tile.x ≤ inner)
    (hv : ∀ (tl_y br_y tl_x br_x : Int) (st : RunState), lo ≤ tl_y → tl_y < height →
      clampFar tl_y sw.height height = some br_y → tile.x ≤ tl_x → tl_x < width →
      clampFar tl_x sw.width width = some br_x →
      ∃ st1, sw.visit sat threshold junk ⟨tl_x, tl_y⟩ ⟨br_x, br_y⟩ st = .ok st1) :
    ∀ (fuel : Nat) (tl_y : Int) (st : RunState), lo ≤ tl_y → height - tl_y ≤ fuel →
      (sw.scanRows sat threshold junk tile height width (inner + 1) (fuel + 1) tl_y st).1
        = Status.done := by
  intro fuel
  induction fuel with
  | zero =>
    intro tl_y st _ hd
    rw [SlidingWindow.scanRows]
    have : ¬ tl_y < height := by simp only [Nat.cast_zero] at hd; omega
    simp only [this, if_false]
  | succ fuel ih =>
    intro tl_y st hlo hd
    rw [SlidingWindow.scanRows]
    split
    · rename_i hlt
      cases hc : clampFar tl_y sw.height height with
      | none => rfl
      | some br_y =>
        have hrow := scanRow_done sw sat threshold junk width tl_y br_y tile.x hsx
          (fun tl_x br_x st h1 h2 h3 => hv tl_y br_y tl_x br_x st hlo hlt hc h1 h2 h3)
          inner tile.x st (le_refl _) hinner
        simp only
        cases hr : sw.scanRow sat threshold junk width tl_y br_y (inner + 1) tile.x st with
        | mk s st1 =>
          rw [hr] at hrow
          simp only at hrow
          subst hrow
          simp only
          apply ih (tl_y + sw.step_y) st1 (by omega)
          push_cast at hd
          have : (1 : Int) ≤ (sw.step_y : Int) := by exact_mod_cast hsy
          omega
    · rfl

/-- With positive strides, a window of at least 1x1 and non-zero area, and a
region inside a `CV_8U` mask, `run` terminates: every fuel above the region's
width and height is enough. -/
theorem run_terminates (sw : SlidingWindow) (hw : 1 ≤ sw.width) (hh : 1 ≤ sw.height)
    (harea : 0 < sw.area) (hsx : 1 ≤ sw.step_x) (hsy : 1 ≤ sw.step_y)
    (junk : Nat → Bool) (mask : Mat) (htype : mask.type = CV_8U) (threshold : ℚ)
    (tile : Rect) (htile : tile.InMask mask) (fuel : Nat)
    (hfw : tile.width ≤ fuel) (hfh : tile.height ≤ fuel) :
    (sw.run (fuel + 1) junk mask threshold tile).1 = Status.done := by
  unfold SlidingWindow.run SAT.build
  simp only [htype, ne_eq, not_true_eq_false, if_false]
  apply scanRows_done sw _ threshold junk tile _ _ tile.y fuel hsx hsy (by omega) _ fuel
    tile.y _ (le_refl _) (by omega)
  intro tl_y br_y tl_x br_x st h1 _ h3 h4 _ h6
  have hy := clampFar_some hh h3
  have hx := clampFar_some hw h6
  obtain ⟨hx0, hy0, _, _, hx1, hy1⟩ := htile
  have hin : (Rect.ofPoints ⟨tl_x, tl_y⟩ ⟨br_x, br_y⟩).InMask mask := by
    simp only [Rect.InMask, Rect.ofPoints]
    rw [min_eq_left (le_of_lt hx.1), min_eq_left (le_of_lt hy.1),
      max_eq_right (le_of_lt hx.1), max_eq_right (le_of_lt hy.1)]
    refine ⟨?_, ?_, ?_, ?_, ?_, ?_⟩ <;> omega
  obtain ⟨f, hf⟩ := fillRatio_ok_of_inMask mask _ hin sw.area harea
  exact visit_ok_of_fillRatio hf st

/-! ### The loop of `push` -/

theorem pushLoop_nil (rect : Rect) (r : ℚ) (found : Bool) :
    pushLoop rect r [] found = ([], found) := rfl

/-- No box intersects: the loop leaves a non-empty sequence as it is and ends
with `found = false`, whatever `found` held on entry. -/
theorem pushLoop_none (rect : Rect) (r : ℚ) :
    ∀ (l : List BoundingBox) (found : Bool), l ≠ [] →
      (∀ b ∈ l, b.doesIntersect rect = false) → pushLoop rect r l found = (l, false) := by
  intro l
  induction l with
  | nil => intro found h; exact absurd rfl h
  | cons b rest ih =>
    intro found _ hall
    have hb : b.doesIntersect rect = false := hall b (List.mem_cons_self _ _)
    have hrest : ∀ x ∈ rest, x.doesIntersect rect = false :=
      fun x hx => hall x (List.mem_cons_of_mem _ hx)
    rw [pushLoop]
    simp only [BoundingBox.expandIfIntersect, hb, Bool.false_eq_true, if_false]
    cases rest with
    | nil => rfl
    | cons c rest2 => rw [ih false (by simp) hrest]

/-- Some box intersects: the first such box is expanded, the others are kept,
and the loop ends with `found = true`, whatever `found` held on entry. -/
theorem pushLoop_first (rect : Rect) (r : ℚ) (pre : List BoundingBox) (b : BoundingBox)
    (post : List BoundingBox) (hpre : ∀ x ∈ pre, x.doesIntersect rect = false)
    (hb : b.doesIntersect rect = true) (found : Bool) :
    pushLoop rect r (pre ++ b :: post) found = (pre ++ b.expand rect r :: post, true) := by
  induction pre generalizing found with
  | nil =>
    rw [List.nil_append, pushLoop]
    simp [BoundingBox.expandIfIntersect, hb]
  | cons x pre ih =>
    have hx : x.doesIntersect rect = false := hpre x (List.mem_cons_self _ _)
    have hrest : ∀ y ∈ pre, y.doesIntersect rect = false :=
      fun y hy => hpre y (List.mem_cons_of_mem _ hy)
    rw [List.cons_append, pushLoop]
    simp only [BoundingBox.expandIfIntersect, hx, Bool.false_eq_true, if_false]
    rw [ih hrest false]
    rfl

/-- The first box that intersects `rect` absorbs it; the result does not depend
on the initial value of `found`. -/
theorem push_first_match (v : BoundingBoxVector) (found0 : Bool) (rect : Rect) (r : ℚ)
    (pre : List BoundingBox) (b : BoundingBox) (post : List BoundingBox)
    (hv : v.vector = pre ++ b :: post)
    (hpre : ∀ x ∈ pre, x.doesIntersect rect = false) (hb : b.doesIntersect rect = true) :
    (v.push found0 rect r).vector = pre ++ b.expand rect r :: post := by
  unfold BoundingBoxVector.push
  simp only [hv, pushLoop_first rect r pre b post hpre hb found0]
  rfl

/-- A non-empty vector none of whose boxes intersects `rect` gets a new box at
the end; the result does not depend on the initial value of `found`. -/
theorem push_no_match (v : BoundingBoxVector) (found0 : Bool) (rect : Rect) (r : ℚ)
    (hne : v.vector ≠ []) (hall : ∀ b ∈ v.vector, b.doesIntersect rect = false) :
    (v.push found0 rect r).vector = v.vector ++ [BoundingBox.create rect r] := by
  unfold BoundingBoxVector.push
  simp only [pushLoop_none rect r v.vector found0 hne hall]
  rfl

/-! ## The claims -/

/-- C1: for a `CV_8U` mask whose pixels are all 0 or 255 and a rectangle of
positive area inside the mask, the SAT is built and `fillRatio(rect)` is
`100 * (number of 255-pixels inside rect) / rect.area()`; that number is
`I(y2,x2) - I(y2,x1) - I(y1,x2) + I(y1,x1)` for the four cells read from the
integral image, and every cell `I(r,c)` of the image is the number of on-pixels
in rows `[0,r)` and columns `[0,c)`. -/
theorem sat_fillRatio_rect_correct (m : Mat) (htype : m.type = CV_8U) (hb : m.Binary)
    (rect : Rect) (hin : rect.InMask m) (hpos : 0 < rect.area) :
    ∃ s, SAT.build m = .ok s ∧
      s.fillRatioRect rect = .ok (100 * (m.onPixels rect : ℚ) / (rect.area : ℚ)) ∧
      (∃ a b c d : Int,
        s.sat.get (rect.y + rect.height) (rect.x + rect.width) = some a ∧
        s.sat.get (rect.y + rect.height) rect.x = some b ∧
        s.sat.get rect.y (rect.x + rect.width) = some c ∧
        s.sat.get rect.y rect.x = some d ∧
        (m.onPixels rect : Int) = a - b - c + d) ∧
      (∀ r c : Nat, r ≤ m.rows → c ≤ m.cols →
        s.sat.get r c = some (m.onCount 0 r 0 c : Int)) := by
  refine ⟨{ sat := integral m, have_sat := true }, by simp [SAT.build, htype], ?_, ?_, ?_⟩
  · have ha : 0 < rect.area.toNat := by omega
    have hcast : ((rect.area.toNat : Nat) : ℚ) = (rect.area : ℚ) := by
      have h : ((rect.area.toNat : Nat) : Int) = rect.area := Int.toNat_of_nonneg (le_of_lt hpos)
      exact_mod_cast congrArg (fun z : Int => (z : ℚ)) h
    rw [SAT.fillRatioRect, fillRatio_of_inMask m hb rect hin _ ha, hcast]
  · obtain ⟨hx0, hy0, hw0, hh0, hx1, hy1⟩ := hin
    refine ⟨_, _, _, _,
      integral_get m (y := rect.y + rect.height) (x := rect.x + rect.width)
        (by omega) hy1 (by omega) hx1,
      integral_get m (y := rect.y + rect.height) (x := rect.x) (by omega) hy1 hx0 (by omega),
      integral_get m (y := rect.y) (x := rect.x + rect.width) hy0 (by omega) (by omega) hx1,
      integral_get m (y := rect.y) (x := rect.x) hy0 (by omega) hx0 (by omega), ?_⟩
    have hsum := integralCell_four (fun i j => div255 (m.px i j))
      (show rect.y.toNat ≤ (rect.y + rect.height).toNat by omega)
      (show rect.x.toNat ≤ (rect.x + rect.width).toNat by omega)
    rw [sum_div255_eq_onCount m hb (show (rect.y + rect.height).toNat ≤ m.rows by omega)
      (show (rect.x + rect.width).toNat ≤ m.cols by omega)] at hsum
    rw [hsum]; rfl
  · intro r c hr hc
    have hg := integral_get m (y := (r : Int)) (x := (c : Int)) (by omega) (by omega)
      (by omega) (by omega)
    rw [Int.toNat_natCast, Int.toNat_natCast] at hg
    rw [hg, integralCell_eq_sum, ← sum_div255_eq_onCount m hb hr hc]
    simp only [Nat.Ico_zero_eq_range]

/-- C1, at the 2x2 mask with every pixel on and the rectangle `(0,0,2,1)`. -/
theorem sat_fillRatio_rect_correct_witness :
    ∃ s, SAT.build mask2x2 = .ok s ∧
      s.fillRatioRect ⟨0, 0, 2, 1⟩
        = .ok (100 * (mask2x2.onPixels ⟨0, 0, 2, 1⟩ : ℚ) / ((Rect.mk 0 0 2 1).area : ℚ)) ∧
      (∃ a b c d : Int,
        s.sat.get ((0 : Int) + 1) ((0 : Int) + 2) = some a ∧
        s.sat.get ((0 : Int) + 1) 0 = some b ∧
        s.sat.get 0 ((0 : Int) + 2) = some c ∧
        s.sat.get 0 0 = some d ∧
        (mask2x2.onPixels ⟨0, 0, 2, 1⟩ : Int) = a - b - c + d) ∧
      (∀ r c : Nat, r ≤ mask2x2.rows → c ≤ mask2x2.cols →
        s.sat.get r c = some (mask2x2.onCount 0 r 0 c : Int)) :=
  sat_fillRatio_rect_correct mask2x2 rfl (fun _ _ _ _ => Or.inr rfl) ⟨0, 0, 2, 1⟩
    (by decide) (by decide)

/-- C2 (the code departs from the claim): on an empty vector the loop of `push`
does not run and the local `found` is read uninitialised; when it happens to
hold `true`, nothing is appended and the pushed rectangle is lost. -/
theorem push_empty_found_uninitialised (rect : Rect) (r : ℚ) :
    (BoundingBoxVector.empty.push true rect r).vector = [] ∧
    (BoundingBoxVector.empty.push false rect r).vector = [BoundingBox.create rect r] := by
  constructor <;> rfl

/-- C3: in `run` over a region inside a binary mask, with a window of width and
height at least 1 whose `area` is `width * height`, every evaluated window `w`
gets the ratio `100 * (on-pixels inside w) / (width * height)` (the nominal
area, also for a clamped window) and is pushed if and only if that ratio is
strictly greater than the threshold, so a ratio equal to the threshold is not
pushed; the result is obtained by performing exactly the recorded pushes, each
with the window and its ratio. -/
theorem run_pushes_iff_ratio_exceeds_threshold (sw : SlidingWindow) (hw : 1 ≤ sw.width)
    (hh : 1 ≤ sw.height) (harea : sw.area = sw.width * sw.height)
    (fuel : Nat) (junk : Nat → Bool) (mask : Mat) (hb : mask.Binary) (threshold : ℚ)
    (tile : Rect) (htile : tile.InMask mask) :
    (∀ e ∈ (sw.run fuel junk mask threshold tile).2.trace,
      e.fill_ratio
          = 100 * (mask.onPixels e.window : ℚ) / ((sw.width * sw.height : Nat) : ℚ) ∧
      (e.pushed = true ↔
        100 * (mask.onPixels e.window : ℚ) / ((sw.width * sw.height : Nat) : ℚ) > threshold) ∧
      (100 * (mask.onPixels e.window : ℚ) / ((sw.width * sw.height : Nat) : ℚ) = threshold →
        e.pushed = false)) ∧
    (sw.run fuel junk mask threshold tile).2.bb
      = replayFrom junk 0 (sw.run fuel junk mask threshold tile).2.trace
          BoundingBoxVector.empty := by
  refine ⟨?_, run_bb_eq_replay sw fuel junk mask threshold tile⟩
  intro e he
  obtain ⟨hr, hp⟩ := run_eval_ratio sw hw hh harea fuel junk mask hb threshold tile htile e he
  rw [← hr]
  refine ⟨rfl, hp, ?_⟩
  intro heq
  cases hpe : e.pushed with
  | false => rfl
  | true => exact absurd (hp.mp hpe) (by rw [heq]; exact lt_irrefl _)

/-- C4: for a `CV_8U` binary mask, a rectangle inside the mask and a reference
area greater than 0, `fillRatio(rect, referenceArea)` is
`100 * (on-pixels inside rect) / referenceArea`, whatever the area of `rect`;
and `fillRatio(rect)` is `fillRatio(rect, rect.area())`. -/
theorem sat_fillRatio_area_correct (m : Mat) (htype : m.type = CV_8U) (hb : m.Binary)
    (rect : Rect) (hin : rect.InMask m) (referenceArea : Nat) (ha : 0 < referenceArea) :
    ∃ s, SAT.build m = .ok s ∧
      s.fillRatio rect referenceArea
        = .ok (100 * (m.onPixels rect : ℚ) / (referenceArea : ℚ)) ∧
      s.fillRatioRect rect = s.fillRatio rect rect.area.toNat ∧
      (rect.area.toNat : Int) = rect.area := by
  refine ⟨{ sat := integral m, have_sat := true }, by simp [SAT.build, htype],
    fillRatio_of_inMask m hb rect hin referenceArea ha, rfl, ?_⟩
  obtain ⟨_, _, hw0, hh0, _, _⟩ := hin
  exact Int.toNat_of_nonneg (Int.mul_nonneg hw0 hh0)

/-- C4, at the 2x2 mask with every pixel on, the rectangle `(0,0,1,1)` and the
reference area 4. -/
theorem sat_fillRatio_area_correct_witness :
    ∃ s, SAT.build mask2x2 = .ok s ∧
      s.fillRatio ⟨0, 0, 1, 1⟩ 4
        = .ok (100 * (mask2x2.onPixels ⟨0, 0, 1, 1⟩ : ℚ) / ((4 : Nat) : ℚ)) ∧
      s.fillRatioRect ⟨0, 0, 1, 1⟩ = s.fillRatio ⟨0, 0, 1, 1⟩ (Rect.mk 0 0 1 1).area.toNat ∧
      ((Rect.mk 0 0 1 1).area.toNat : Int) = (Rect.mk 0 0 1 1).area :=
  sat_fillRatio_area_correct mask2x2 rfl (fun _ _ _ _ => Or.inr rfl) ⟨0, 0, 1, 1⟩
    (by decide) 4 (by decide)

/-- C5 (the claim fails): the 1x1 `CV_8U` mask whose pixel is 100 is not a
two-valued raster, yet the SAT is built from it. -/
theorem sat_build_accepts_grey_mask :
    ¬ maskGrey.Binary ∧ ∃ s, SAT.build maskGrey = .ok s := by
  constructor
  · intro h
    have := h 0 0 (by decide) (by decide)
    simp [maskGrey] at this
  · exact ⟨_, rfl⟩

/-- C5 (amended): SAT construction succeeds exactly when the mask has the type
`CV_8U`, and raises the logic error otherwise; the pixel values are not
inspected. -/
theorem sat_build_ok_iff_type (m : Mat) :
    ((∃ s, SAT.build m = .ok s) ↔ m.type = CV_8U) ∧
    (m.type ≠ CV_8U → SAT.build m = .error Fault.logicError) := by
  unfold SAT.build
  by_cases h : m.type = CV_8U
  · simp [h]
  · simp [h]

/-- C5 (amended), at the grey 1x1 mask and at the same mask with another type
code. -/
theorem sat_build_ok_iff_type_witness :
    (∃ s, SAT.build maskGrey = .ok s) ∧
    SAT.build { maskGrey with type := 16 } = .error Fault.logicError :=
  ⟨(sat_build_ok_iff_type maskGrey).1.mpr rfl,
   (sat_build_ok_iff_type { maskGrey with type := 16 }).2 (by decide)⟩

/-- C6 (the code departs from the claim): on the 2x2 mask with a 1x1 window and
strides 1 the scan ends after evaluating the single window `(0,0,1,1)`; for
every fuel, junk and threshold no evaluated window contains the pixel in row 1,
column 1 (nor any pixel of the last row or the last column). -/
theorem run_misses_last_row_and_column :
    ((SlidingWindow.create 1 1 1 1).runMask 3 (fun _ => false) mask2x2 50).1 = Status.done ∧
    ((SlidingWindow.create 1 1 1 1).runMask 3 (fun _ => false) mask2x2 50).2.trace.map
        (fun e => e.window) = [⟨0, 0, 1, 1⟩] ∧
    ∀ (fuel : Nat) (junk : Nat → Bool) (threshold : ℚ),
      ∀ e ∈ ((SlidingWindow.create 1 1 1 1).runMask fuel junk mask2x2 threshold).2.trace,
        ∀ row col : Int, e.window.Covers row col → row < 1 ∧ col < 1 := by
  refine ⟨by decide!, by decide!, ?_⟩
  intro fuel junk threshold e he row col hcov
  have hg := run_window_geometry (SlidingWindow.create 1 1 1 1) (by decide) (by decide)
    fuel junk mask2x2 threshold ⟨0, 0, mask2x2.cols, mask2x2.rows⟩ e he
  simp only [mask2x2] at hg
  unfold Rect.Covers at hcov
  omega

/-- C7: every window evaluated by `run` for a window of width and height at
least 1 lies within the region and is non-degenerate. -/
theorem run_windows_within_region (sw : SlidingWindow) (hw : 1 ≤ sw.width)
    (hh : 1 ≤ sw.height) (fuel : Nat) (junk : Nat → Bool) (mask : Mat) (threshold : ℚ)
    (region : Rect) :
    ∀ e ∈ (sw.run fuel junk mask threshold region).2.trace,
      region.x ≤ e.window.x ∧ region.y ≤ e.window.y ∧
      e.window.x + e.window.width ≤ region.x + region.width ∧
      e.window.y + e.window.height ≤ region.y + region.height ∧
      1 ≤ e.window.width ∧ e.window.width ≤ sw.width ∧
      1 ≤ e.window.height ∧ e.window.height ≤ sw.height := by
  intro e he
  have hg := run_window_geometry sw hw hh fuel junk mask threshold region e he
  refine ⟨?_, ?_, ?_, ?_, ?_, ?_, ?_, ?_⟩ <;> omega

/-- C8 (the code departs from the claim): the window built by
`SlidingWindow(4, 4)` has the strides `4 / 8 = 0`; its scan of the 10x10 mask
evaluates the window at the origin again and again and uses up any fuel. -/
theorem run_default_strides_diverges (fuel : Nat) (junk : Nat → Bool) (threshold : ℚ) :
    (SlidingWindow.ofSize 4 4).step_x = 0 ∧
    ((SlidingWindow.ofSize 4 4).runMask fuel junk mask10x10 threshold).1
      = Status.outOfFuel := by
  refine ⟨rfl, ?_⟩
  exact run_diverges_of_step_x_zero (SlidingWindow.ofSize 4 4) (by decide) (by decide)
    (by decide) rfl junk mask10x10 rfl threshold _ (by decide) (by decide) (by decide) fuel

/-- C3, at the 10x10 mask with every pixel on, a 4x4 window with strides 4 and
the threshold 25: the window `(8,0,1,4)`, clamped at the right edge, has the
ratio `100 * 4 / 16 = 25`, equal to the threshold, and is not pushed. -/
theorem run_pushes_iff_ratio_exceeds_threshold_witness :
    (25 : ℚ) = 100 * (mask10x10.onPixels ⟨8, 0, 1, 4⟩ : ℚ) / ((4 * 4 : Nat) : ℚ) ∧
    (false = true ↔
      100 * (mask10x10.onPixels ⟨8, 0, 1, 4⟩ : ℚ) / ((4 * 4 : Nat) : ℚ) > 25) ∧
    (100 * (mask10x10.onPixels ⟨8, 0, 1, 4⟩ : ℚ) / ((4 * 4 : Nat) : ℚ) = 25 →
      false = false) :=
  (run_pushes_iff_ratio_exceeds_threshold (SlidingWindow.create 4 4 4 4) (by decide)
    (by decide) rfl 5 (fun _ => false) mask10x10 (fun _ _ _ _ => Or.inr rfl) 25
    ⟨0, 0, 10, 10⟩ (by decide)).1
    { window := ⟨8, 0, 1, 4⟩, fill_ratio := 25, pushed := false } (by decide!)

/-- C7, at the 10x10 mask, a 4x4 window with strides 4 and the region
`(0,0,10,10)`: the last evaluated window `(8,8,1,1)`. -/
theorem run_windows_within_region_witness :
    (0 : Int) ≤ 8 ∧ (0 : Int) ≤ 8 ∧ (8 : Int) + 1 ≤ 0 + 10 ∧ (8 : Int) + 1 ≤ 0 + 10 ∧
    (1 : Int) ≤ 1 ∧ (1 : Int) ≤ (4 : Nat) ∧ (1 : Int) ≤ 1 ∧ (1 : Int) ≤ (4 : Nat) :=
  run_windows_within_region (SlidingWindow.create 4 4 4 4) (by decide) (by decide) 5
    (fun _ => false) mask10x10 50 ⟨0, 0, 10, 10⟩
    { window := ⟨8, 8, 1, 1⟩, fill_ratio := 25 / 4, pushed := false } (by decide!)

/-- C9: `expand(rect, r)` with `r` different from the sentinel -1 leaves
`max(old best_fill_ratio, r)` as best fill ratio and makes `rect` the best
rectangle when `r` exceeds the old ratio, keeping the old best rectangle
otherwise; `expand(rect)` and `expand(rect, -1)` keep both; so the best fill
ratio never decreases over a sequence of `expand` calls. -/
theorem expand_best_fit (b : BoundingBox) (rect : Rect) (r : ℚ) :
    (r ≠ ODF_BB_INVALID_FILL_RATIO →
      (b.expand rect r).fill_ratio = max b.fill_ratio r ∧
      (r > b.fill_ratio → (b.expand rect r).best_fit_box = rect) ∧
      (¬ r > b.fill_ratio → (b.expand rect r).best_fit_box = b.best_fit_box)) ∧
    ((b.expandRect rect).best_fit_box = b.best_fit_box ∧
      (b.expandRect rect).fill_ratio = b.fill_ratio) ∧
    ((b.expand rect ODF_BB_INVALID_FILL_RATIO).best_fit_box = b.best_fit_box ∧
      (b.expand rect ODF_BB_INVALID_FILL_RATIO).fill_ratio = b.fill_ratio) ∧
    (∀ calls : List (Rect × ℚ), b.fill_ratio ≤ (b.expandAll calls).fill_ratio) := by
  have hmono : ∀ (c : BoundingBox) (q : Rect) (s : ℚ), c.fill_ratio ≤ (c.expand q s).fill_ratio := by
    intro c q s
    unfold BoundingBox.expand
    simp only
    split
    · exact le_refl _
    · rename_i h
      push_neg at h
      exact le_of_lt h.2
  refine ⟨?_, ?_, ?_, ?_⟩
  · intro hr
    unfold BoundingBox.expand
    simp only [hr, false_or, ge_iff_le, gt_iff_lt, not_lt]
    by_cases h : r ≤ b.fill_ratio
    · simp [h, max_eq_left h]
    · have h2 : b.fill_ratio < r := lt_of_not_le h
      simp [h, h2, max_eq_right (le_of_lt h2)]
  · simp [BoundingBox.expandRect, BoundingBox.expand]
  · simp [BoundingBox.expand]
  · intro calls
    unfold BoundingBox.expandAll
    induction calls generalizing b with
    | nil => exact le_refl _
    | cons c cs ih =>
      rw [List.foldl_cons]
      exact le_trans (hmono b c.1 c.2) (ih (b.expand c.1 c.2))

/-- C9, at a box with ratio 10 expanded with a rectangle of ratio 50. -/
theorem expand_best_fit_witness :
    ((BoundingBox.create ⟨0, 0, 2, 2⟩ 10).expand ⟨1, 1, 2, 2⟩ 50).fill_ratio
        = max (BoundingBox.create ⟨0, 0, 2, 2⟩ 10).fill_ratio 50 ∧
    ((50 : ℚ) > (BoundingBox.create ⟨0, 0, 2, 2⟩ 10).fill_ratio →
      ((BoundingBox.create ⟨0, 0, 2, 2⟩ 10).expand ⟨1, 1, 2, 2⟩ 50).best_fit_box
        = ⟨1, 1, 2, 2⟩) ∧
    (¬ (50 : ℚ) > (BoundingBox.create ⟨0, 0, 2, 2⟩ 10).fill_ratio →
      ((BoundingBox.create ⟨0, 0, 2, 2⟩ 10).expand ⟨1, 1, 2, 2⟩ 50).best_fit_box
        = (BoundingBox.create ⟨0, 0, 2, 2⟩ 10).best_fit_box) :=
  (expand_best_fit (BoundingBox.create ⟨0, 0, 2, 2⟩ 10) ⟨1, 1, 2, 2⟩ 50).1
    (by unfold ODF_BB_INVALID_FILL_RATIO; norm_num)

theorem union_within_left (a b : Rect) : a.Within (a.union b) := by
  unfold Rect.Within Rect.union
  simp only
  refine ⟨min_le_left _ _, min_le_left _ _, ?_, ?_⟩
  · have := le_max_left (a.x + a.width) (b.x + b.width); omega
  · have := le_max_left (a.y + a.height) (b.y + b.height); omega

theorem union_within_right (a b : Rect) : b.Within (a.union b) := by
  unfold Rect.Within Rect.union
  simp only
  refine ⟨min_le_right _ _, min_le_right _ _, ?_, ?_⟩
  · have := le_max_right (a.x + a.width) (b.x + b.width); omega
  · have := le_max_right (a.y + a.height) (b.y + b.height); omega

theorem expand_bounding_box (b : BoundingBox) (rect : Rect) (r : ℚ) :
    (b.expand rect r).bounding_box = b.bounding_box.union rect := by
  unfold BoundingBox.expand
  simp only
  split <;> rfl

/-- A rectangle of non-negative size within another has at most its area, and
the enclosing rectangle has non-negative size too. -/
theorem within_area_le {a b : Rect} (h : a.Within b) (hw : 0 ≤ a.width) (hh : 0 ≤ a.height) :
    a.area ≤ b.area ∧ 0 ≤ b.width ∧ 0 ≤ b.height := by
  obtain ⟨h1, h2, h3, h4⟩ := h
  have hw2 : a.width ≤ b.width := by omega
  have hh2 : a.height ≤ b.height := by omega
  exact ⟨Int.mul_le_mul hw2 hh2 hh (by omega), by omega, by omega⟩

theorem within_trans {a b c : Rect} (h1 : a.Within b) (h2 : b.Within c) : a.Within c := by
  unfold Rect.Within at *
  omega

/-- C10: after `expand(rect)` or `expand(rect, r)` the union rectangle contains
the previous union rectangle and `rect` (left and top edges no greater, right
and bottom edges no smaller); for a box whose union rectangle has non-negative
width and height its area is at least the previous area; and the same holds
from the start to the end of any sequence of `expand` calls. -/
theorem expand_union_grows (b : BoundingBox) (rect : Rect) (r : ℚ) :
    (b.bounding_box.Within (b.expand rect r).bounding_box ∧
      rect.Within (b.expand rect r).bounding_box) ∧
    (b.bounding_box.Within (b.expandRect rect).bounding_box ∧
      rect.Within (b.expandRect rect).bounding_box) ∧
    (0 ≤ b.bounding_box.width → 0 ≤ b.bounding_box.height →
      b.bounding_box.area ≤ (b.expand rect r).bounding_box.area ∧
      b.bounding_box.area ≤ (b.expandRect rect).bounding_box.area ∧
      ∀ calls : List (Rect × ℚ),
        b.bounding_box.Within (b.expandAll calls).bounding_box ∧
        b.bounding_box.area ≤ (b.expandAll calls).bounding_box.area) := by
  have hall : ∀ (calls : List (Rect × ℚ)) (c : BoundingBox),
      c.bounding_box.Within (c.expandAll calls).bounding_box := by
    intro calls
    induction calls with
    | nil => intro c; unfold Rect.Within; simp [BoundingBox.expandAll]
    | cons x xs ih =>
      intro c
      have h1 : c.bounding_box.Within (c.expand x.1 x.2).bounding_box := by
        rw [expand_bounding_box]; exact union_within_left _ _
      exact within_trans h1 (ih (c.expand x.1 x.2))
  refine ⟨⟨?_, ?_⟩, ⟨?_, ?_⟩, ?_⟩
  · rw [expand_bounding_box]; exact union_within_left _ _
  · rw [expand_bounding_box]; exact union_within_right _ _
  · rw [BoundingBox.expandRect, expand_bounding_box]; exact union_within_left _ _
  · rw [BoundingBox.expandRect, expand_bounding_box]; exact union_within_right _ _
  · intro hw hh
    refine ⟨?_, ?_, ?_⟩
    · rw [expand_bounding_box]
      exact (within_area_le (union_within_left _ _) hw hh).1
    · rw [BoundingBox.expandRect, expand_bounding_box]
      exact (within_area_le (union_within_left _ _) hw hh).1
    · intro calls
      exact ⟨hall calls b, (within_area_le (hall calls b) hw hh).1⟩

/-- C10, at the box `(0,0,2,2)` expanded with `(1,1,2,2)` and then with
`(5,0,1,1)`. -/
theorem expand_union_grows_witness :
    (BoundingBox.create ⟨0, 0, 2, 2⟩ 10).bounding_box.area
        ≤ ((BoundingBox.create ⟨0, 0, 2, 2⟩ 10).expand ⟨1, 1, 2, 2⟩ 50).bounding_box.area ∧
    (BoundingBox.create ⟨0, 0, 2, 2⟩ 10).bounding_box.area
        ≤ ((BoundingBox.create ⟨0, 0, 2, 2⟩ 10).expandRect ⟨1, 1, 2, 2⟩).bounding_box.area ∧
    ∀ calls : List (Rect × ℚ),
      (BoundingBox.create ⟨0, 0, 2, 2⟩ 10).bounding_box.Within
        ((BoundingBox.create ⟨0, 0, 2, 2⟩ 10).expandAll calls).bounding_box ∧
      (BoundingBox.create ⟨0, 0, 2, 2⟩ 10).bounding_box.area
        ≤ ((BoundingBox.create ⟨0, 0, 2, 2⟩ 10).expandAll calls).bounding_box.area :=
  (expand_union_grows (BoundingBox.create ⟨0, 0, 2, 2⟩ 10) ⟨1, 1, 2, 2⟩ 50).2.2
    (by decide) (by decide)

/-! ## Lemmas on intersection and on `push` -/

/-- The flag computed by `doesIntersect` in terms of the edges. -/
theorem doesIntersect_iff_edges (b : BoundingBox) (rect : Rect) :
    b.doesIntersect rect = true ↔
      max b.bounding_box.x rect.x
          < min (b.bounding_box.x + b.bounding_box.width) (rect.x + rect.width) ∧
      max b.bounding_box.y rect.y
          < min (b.bounding_box.y + b.bounding_box.height) (rect.y + rect.height) := by
  unfold BoundingBox.doesIntersect Rect.inter
  simp only
  by_cases h : min (b.bounding_box.x + b.bounding_box.width) (rect.x + rect.width)
        - max b.bounding_box.x rect.x ≤ 0 ∨
      min (b.bounding_box.y + b.bounding_box.height) (rect.y + rect.height)
        - max b.bounding_box.y rect.y ≤ 0
  · simp only [h, if_true, Rect.area]
    constructor
    · intro h2; simp at h2
    · intro h2; omega
  · simp only [h, if_false, Rect.area]
    push_neg at h
    have hpos := Int.mul_pos h.1 h.2
    simp only [gt_iff_lt, hpos, if_true, true_iff]
    omega

theorem overlapArea_pos_iff (a b : Rect) :
    0 < a.overlapArea b ↔
      max a.x b.x < min (a.x + a.width) (b.x + b.width) ∧
      max a.y b.y < min (a.y + a.height) (b.y + b.height) := by
  unfold Rect.overlapArea
  constructor
  · intro h
    by_contra hc
    have hz : max 0 (min (a.x + a.width) (b.x + b.width) - max a.x b.x) = 0 ∨
        max 0 (min (a.y + a.height) (b.y + b.height) - max a.y b.y) = 0 := by omega
    rcases hz with hz | hz <;> rw [hz] at h <;> simp at h
  · intro h
    apply Int.mul_pos <;> omega

theorem overlapArea_nonneg (a b : Rect) : 0 ≤ a.overlapArea b := by
  unfold Rect.overlapArea
  apply Int.mul_nonneg <;> omega

theorem shared_pixel_iff (a b : Rect) :
    (∃ row col : Int, a.Covers row col ∧ b.Covers row col) ↔
      max a.x b.x < min (a.x + a.width) (b.x + b.width) ∧
      max a.y b.y < min (a.y + a.height) (b.y + b.height) := by
  unfold Rect.Covers
  constructor
  · rintro ⟨row, col, h1, h2⟩
    omega
  · intro h
    refine ⟨max a.y b.y, max a.x b.x, ?_, ?_⟩ <;> omega

theorem within_refl (a : Rect) : a.Within a := by
  unfold Rect.Within; omega

theorem expandIfIntersect_fst (b : BoundingBox) (rect : Rect) (r : ℚ) :
    (b.expandIfIntersect rect r).1 = b.doesIntersect rect := by
  unfold BoundingBox.expandIfIntersect
  cases hd : b.doesIntersect rect <;> simp

theorem expandIfIntersect_grows (b : BoundingBox) (rect : Rect) (r : ℚ) :
    b.bounding_box.Within (b.expandIfIntersect rect r).2.bounding_box := by
  unfold BoundingBox.expandIfIntersect
  simp only
  split
  · rw [expand_bounding_box]; exact union_within_left _ _
  · exact within_refl _

/-- What the loop of `push` keeps: the boxes stay in place and their union
rectangles only grow; and when the loop ends with `found` set, either a box
now contains `rect` or no box was visited and `found` was set on entry. -/
theorem pushLoop_keeps (rect : Rect) (r : ℚ) :
    ∀ (l : List BoundingBox) (found : Bool),
      List.Forall₂ (fun old new => old.bounding_box.Within new.bounding_box) l
        (pushLoop rect r l found).1 ∧
      ((pushLoop rect r l found).2 = true →
        (l = [] ∧ found = true) ∨
        ∃ b ∈ (pushLoop rect r l found).1, rect.Within b.bounding_box) := by
  intro l
  induction l with
  | nil =>
    intro found
    exact ⟨List.Forall₂.nil, fun h => Or.inl ⟨rfl, h⟩⟩
  | cons b rest ih =>
    intro found
    rw [pushLoop]
    simp only
    by_cases hd : (b.expandIfIntersect rect r).1 = true
    · simp only [hd, if_true]
      refine ⟨List.Forall₂.cons (expandIfIntersect_grows b rect r) ?_, ?_⟩
      · exact List.forall₂_same.mpr (fun x _ => within_refl _)
      · intro _
        refine Or.inr ⟨_, List.mem_cons_self _ _, ?_⟩
        have h1 : b.doesIntersect rect = true := by
          rw [expandIfIntersect_fst] at hd
          exact hd
        have h2 : (b.expandIfIntersect rect r).2 = b.expand rect r := by
          simp [BoundingBox.expandIfIntersect, h1]
        rw [h2, expand_bounding_box]
        exact union_within_right _ _
    · have hf : (b.expandIfIntersect rect r).1 = false := by
        cases h : (b.expandIfIntersect rect r).1
        · rfl
        · exact absurd h hd
      simp only [hf, Bool.false_eq_true, if_false]
      obtain ⟨h1, h2⟩ := ih false
      refine ⟨List.Forall₂.cons (expandIfIntersect_grows b rect r) h1, ?_⟩
      intro hfound
      rcases h2 hfound with ⟨_, hcontra⟩ | ⟨x, hx, hxw⟩
      · exact absurd hcontra (by simp)
      · exact Or.inr ⟨x, List.mem_cons_of_mem _ hx, hxw⟩

/-- Apart from the empty vector entered with `found` set, `push` loses nothing:
the old boxes stay at their indices with union rectangles that contain the old
ones, at most one box is added at the end, and some box contains `rect`. -/
theorem push_keeps (v : BoundingBoxVector) (found0 : Bool) (rect : Rect) (r : ℚ) :
    ∃ (kept tail : List BoundingBox),
      (v.push found0 rect r).vector = kept ++ tail ∧
      List.Forall₂ (fun old new => old.bounding_box.Within new.bounding_box) v.vector kept ∧
      (tail = [] ∨ tail = [BoundingBox.create rect r]) ∧
      (v.vector ≠ [] ∨ found0 = false →
        ∃ b ∈ (v.push found0 rect r).vector, rect.Within b.bounding_box) := by
  obtain ⟨h1, h2⟩ := pushLoop_keeps rect r v.vector found0
  unfold BoundingBoxVector.push
  simp only
  cases hf : (pushLoop rect r v.vector found0).2 with
  | false =>
    simp only [Bool.not_false, if_true]
    refine ⟨_, _, rfl, h1, Or.inr rfl, ?_⟩
    intro _
    exact ⟨BoundingBox.create rect r, by simp, within_refl _⟩
  | true =>
    simp only [Bool.not_true, Bool.false_eq_true, if_false]
    refine ⟨_, [], (List.append_nil _).symm, h1, Or.inl rfl, ?_⟩
    intro hne
    rcases h2 hf with ⟨he, hfd⟩ | hex
    · rcases hne with hne | hne
      · exact absurd he hne
      · rw [hne] at hfd; exact absurd hfd (by simp)
    · exact hex

/-- Apart from the first call finding `found` set on the empty vector, pushing
rectangles none of which intersects an existing box or an earlier rectangle
adds one box per rectangle, in order, each holding its rectangle. -/
theorem pushAll_disjoint (junk : Nat → Bool) :
    ∀ (rects : List (Rect × ℚ)) (k : Nat) (v : BoundingBoxVector),
      (v.vector ≠ [] ∨ junk k = false) →
      (∀ b ∈ v.vector, ∀ c ∈ rects, b.doesIntersect c.1 = false) →
      rects.Pairwise (fun c d => c.1.overlapArea d.1 = 0) →
      (BoundingBoxVector.pushAll junk k rects v).vector
        = v.vector ++ rects.map (fun c => BoundingBox.create c.1 c.2) := by
  intro rects
  induction rects with
  | nil => intro k v _ _ _; simp [BoundingBoxVector.pushAll]
  | cons c cs ih =>
    intro k v hk hv hp
    rw [BoundingBoxVector.pushAll]
    have hnone : ∀ b ∈ v.vector, b.doesIntersect c.1 = false :=
      fun b hb => hv b hb c (List.mem_cons_self _ _)
    have hpush : (v.push (junk k) c.1 c.2).vector
        = v.vector ++ [BoundingBox.create c.1 c.2] := by
      by_cases hne : v.vector = []
      · have hj : junk k = false := by
          rcases hk with hk | hk
          · exact absurd hne hk
          · exact hk
        unfold BoundingBoxVector.push
        simp [hne, hj, pushLoop]
      · exact push_no_match v (junk k) c.1 c.2 hne hnone
    rw [List.pairwise_cons] at hp
    have hstep := ih (k + 1) (v.push (junk k) c.1 c.2)
      (Or.inl (by rw [hpush]; simp)) ?_ hp.2
    · rw [hstep, hpush]; simp
    · intro b hb d hd
      rw [hpush, List.mem_append, List.mem_singleton] at hb
      rcases hb with hb | hb
      · exact hv b hb d (List.mem_cons_of_mem _ hd)
      · subst hb
        cases hi : (BoundingBox.create c.1 c.2).doesIntersect d.1 with
        | false => rfl
        | true =>
          have hpos := (doesIntersect_iff_edges _ _).mp hi
          have h0 := hp.1 d hd
          have := (overlapArea_pos_iff c.1 d.1).mpr hpos
          omega

/-! ## The claims on boxes, the default SAT and clamping -/

/-- C11: `doesIntersect(rect)` is true exactly when the geometric intersection
of the box's union rectangle and `rect` has positive area, that is when
`max(left edges) < min(right edges)` and `max(top edges) < min(bottom edges)`,
that is when the two rectangles have a pixel in common; rectangles that only
share an edge or a corner and rectangles of zero area do not intersect. The
method is `const`: it yields the flag only and the box stays as it is. -/
theorem doesIntersect_iff_positive_overlap (b : BoundingBox) (rect : Rect) :
    (b.doesIntersect rect = true ↔ 0 < b.bounding_box.overlapArea rect) ∧
    (b.doesIntersect rect = true ↔
      max b.bounding_box.x rect.x
          < min (b.bounding_box.x + b.bounding_box.width) (rect.x + rect.width) ∧
      max b.bounding_box.y rect.y
          < min (b.bounding_box.y + b.bounding_box.height) (rect.y + rect.height)) ∧
    (b.doesIntersect rect = true ↔
      ∃ row col : Int, b.bounding_box.Covers row col ∧ rect.Covers row col) ∧
    (b.bounding_box.x + b.bounding_box.width ≤ rect.x ∨
      rect.x + rect.width ≤ b.bounding_box.x ∨
      b.bounding_box.y + b.bounding_box.height ≤ rect.y ∨
      rect.y + rect.height ≤ b.bounding_box.y → b.doesIntersect rect = false) ∧
    (rect.area = 0 ∨ b.bounding_box.area = 0 → b.doesIntersect rect = false) := by
  have hedges := doesIntersect_iff_edges b rect
  refine ⟨?_, hedges, ?_, ?_, ?_⟩
  · rw [hedges, overlapArea_pos_iff]
  · rw [hedges, shared_pixel_iff]
  · intro h
    cases hd : b.doesIntersect rect with
    | false => rfl
    | true => have := hedges.mp hd; omega
  · intro h
    cases hd : b.doesIntersect rect with
    | false => rfl
    | true =>
      have he := hedges.mp hd
      exfalso
      unfold Rect.area at h
      rcases h with h | h <;> rcases Int.mul_eq_zero.mp h with h0 | h0 <;> omega

/-- C11, at the box `(0,0,2,2)`: the rectangle `(2,0,2,2)` shares only an edge
with it and the rectangle `(1,1,0,5)` has zero area. -/
theorem doesIntersect_iff_positive_overlap_witness :
    (BoundingBox.create ⟨0, 0, 2, 2⟩ 10).doesIntersect ⟨2, 0, 2, 2⟩ = false ∧
    (BoundingBox.create ⟨0, 0, 2, 2⟩ 10).doesIntersect ⟨1, 1, 0, 5⟩ = false :=
  ⟨(doesIntersect_iff_positive_overlap (BoundingBox.create ⟨0, 0, 2, 2⟩ 10)
      ⟨2, 0, 2, 2⟩).2.2.2.1 (Or.inl (by decide)),
   (doesIntersect_iff_positive_overlap (BoundingBox.create ⟨0, 0, 2, 2⟩ 10)
      ⟨1, 1, 0, 5⟩).2.2.2.2 (Or.inl (by decide))⟩

/-- C12: `expandIfIntersect(rect, r)` returns the value of `doesIntersect(rect)`
on the box before the call; when that is false the box is unchanged, when it is
true the box is the one `expand(rect, r)` produces; the one-argument form is
`expandIfIntersect(rect, -1.0)`. -/
theorem expandIfIntersect_spec (b : BoundingBox) (rect : Rect) (r : ℚ) :
    (b.expandIfIntersect rect r).1 = b.doesIntersect rect ∧
    (b.doesIntersect rect = false →
      (b.expandIfIntersect rect r).2 = b ∧
      (b.expandIfIntersect rect r).2.bounding_box = b.bounding_box ∧
      (b.expandIfIntersect rect r).2.best_fit_box = b.best_fit_box ∧
      (b.expandIfIntersect rect r).2.fill_ratio = b.fill_ratio) ∧
    (b.doesIntersect rect = true → (b.expandIfIntersect rect r).2 = b.expand rect r) ∧
    b.expandIfIntersectRect rect = b.expandIfIntersect rect (-1) := by
  unfold BoundingBox.expandIfIntersect
  refine ⟨?_, ?_, ?_, rfl⟩
  · cases hd : b.doesIntersect rect <;> simp
  · intro hd
    simp [hd]
  · intro hd
    simp [hd]

/-- C12, at the box `(0,0,2,2)` with the rectangle `(2,0,2,2)`, which does not
intersect it, and with `(1,1,2,2)`, which does. -/
theorem expandIfIntersect_spec_witness :
    ((BoundingBox.create ⟨0, 0, 2, 2⟩ 10).expandIfIntersect ⟨2, 0, 2, 2⟩ 50).2
        = BoundingBox.create ⟨0, 0, 2, 2⟩ 10 ∧
    ((BoundingBox.create ⟨0, 0, 2, 2⟩ 10).expandIfIntersect ⟨1, 1, 2, 2⟩ 50).2
        = (BoundingBox.create ⟨0, 0, 2, 2⟩ 10).expand ⟨1, 1, 2, 2⟩ 50 :=
  ⟨((expandIfIntersect_spec (BoundingBox.create ⟨0, 0, 2, 2⟩ 10) ⟨2, 0, 2, 2⟩ 50).2.1
      (by decide)).1,
   (expandIfIntersect_spec (BoundingBox.create ⟨0, 0, 2, 2⟩ 10) ⟨1, 1, 2, 2⟩ 50).2.2.1
      (by decide)⟩

/-- C16 (the code departs from the claim): `getBestFitBox` returns the union
rectangle. For the box created from `A = (0,0,2,2)` with ratio 10 and expanded
with `B = (1,1,2,2)` with ratio 50 the best rectangle is `B`, and
`getBestFitBox` returns the union `(0,0,3,3)`. -/
theorem getBestFitBox_returns_union :
    (∀ b : BoundingBox, b.getBestFitBox = b.bounding_box) ∧
    ((BoundingBox.create ⟨0, 0, 2, 2⟩ 10).expand ⟨1, 1, 2, 2⟩ 50).best_fit_box
        = ⟨1, 1, 2, 2⟩ ∧
    ((BoundingBox.create ⟨0, 0, 2, 2⟩ 10).expand ⟨1, 1, 2, 2⟩ 50).getBestFitBox
        = ⟨0, 0, 3, 3⟩ := by
  refine ⟨fun _ => rfl, by decide!, by decide!⟩

/-- C17 (the code departs from the claim): `getFillRatio` calls itself and
nothing else, so no depth of calls is enough for it to return a value. -/
theorem getFillRatio_never_returns (b : BoundingBox) (fuel : Nat) :
    b.getFillRatio fuel = none := by
  induction fuel with
  | zero => rfl
  | succ n ih => rw [BoundingBox.getFillRatio, ih]

/-- C18: a default-constructed SAT answers `fillRatio(rect, area)` and
`fillRatio(rect)` with 0 for every rectangle and every reference area, zero
included; its table is empty, so any lookup would have been outside it. -/
theorem sat_empty_fillRatio_zero (rect : Rect) (area : Nat) :
    SAT.empty.fillRatio rect area = .ok 0 ∧
    SAT.empty.fillRatioRect rect = .ok 0 ∧
    SAT.empty.fillRatio rect 0 = .ok 0 ∧
    (∀ y x : Int, SAT.empty.sat.get y x = none) := by
  refine ⟨rfl, rfl, rfl, ?_⟩
  intro y x
  unfold IntMat.get SAT.empty
  simp only [Nat.cast_zero]
  split
  · omega
  · rfl

/-- C13 (the code departs from the claim): on an empty vector entered with the
uninitialised `found` set, `push(rect, r)` and `push(rect)` leave the vector
empty, so no box contains the pushed rectangle. -/
theorem push_drops_rect_on_empty_vector (rect : Rect) (r : ℚ) :
    (BoundingBoxVector.empty.push true rect r).vector.length = 0 ∧
    (¬ ∃ b ∈ (BoundingBoxVector.empty.push true rect r).vector,
      rect.Within b.bounding_box) ∧
    (∃ v, BoundingBoxVector.empty.pushRect true rect = .ok v ∧ v.vector = []) := by
  refine ⟨rfl, ?_, ⟨_, rfl, rfl⟩⟩
  rintro ⟨b, hb, _⟩
  exact absurd hb (List.not_mem_nil b)

/-- C14 (the code departs from the claim): the rectangles `(0,0,2,2)` and
`(5,0,2,2)` do not intersect; pushed in this order into an empty vector, with
the uninitialised `found` set at the first call, they leave one box, holding
the second rectangle. -/
theorem pushAll_disjoint_loses_first :
    (Rect.mk 0 0 2 2).overlapArea ⟨5, 0, 2, 2⟩ = 0 ∧
    (BoundingBoxVector.pushAll (fun k => decide (k = 0)) 0
        [(⟨0, 0, 2, 2⟩, 10), (⟨5, 0, 2, 2⟩, 20)] BoundingBoxVector.empty).vector
      = [BoundingBox.create ⟨5, 0, 2, 2⟩ 20] := by
  refine ⟨by decide, by decide!⟩

/-- C15 (the code departs from the claim): a vector built by
`BoundingBoxVector(sat)` has `area == 0`, so `push(rect)` always takes the
branch that uses the sentinel -1 and never asks the SAT. For the SAT of the 2x2
mask with every pixel on and the rectangle `(0,0,1,1)`, whose fill ratio is
100, the new box stores -1. -/
theorem pushRect_ofSAT_ignores_sat :
    (∀ (sat : SAT) (found0 : Bool) (rect : Rect),
      (BoundingBoxVector.ofSAT sat).pushRect found0 rect
        = .ok ((BoundingBoxVector.ofSAT sat).push found0 rect ODF_BB_INVALID_FILL_RATIO)) ∧
    SAT.fillRatioRect { sat := integral mask2x2, have_sat := true } ⟨0, 0, 1, 1⟩ = .ok 100 ∧
    ((BoundingBoxVector.ofSAT { sat := integral mask2x2, have_sat := true }).push false
        ⟨0, 0, 1, 1⟩ ODF_BB_INVALID_FILL_RATIO).vector
      = [BoundingBox.create ⟨0, 0, 1, 1⟩ (-1)] ∧
    ((BoundingBoxVector.ofSAT { sat := integral mask2x2, have_sat := true }).push false
        ⟨0, 0, 1, 1⟩ 100).vector
      = [BoundingBox.create ⟨0, 0, 1, 1⟩ 100] := by
  refine ⟨fun _ _ _ => rfl, by decide!, by decide!, by decide!⟩

/-- A far edge strictly inside the limit is not clamped. -/
theorem clampFar_of_lt {tl : Int} {size : Nat} {limit : Int} (h : tl + size < limit) :
    clampFar tl size limit = some (tl + size) := by
  unfold clampFar
  simp only
  split
  · omega
  · rfl

/-- A far edge exactly at the limit is clamped to one less, or is a `break`. -/
theorem clampFar_of_eq {tl : Int} {size : Nat} {limit : Int} (h : tl + size = limit) :
    clampFar tl size limit = if size ≤ 1 then none else some (limit - 1) := by
  unfold clampFar
  simp only
  have h1 : tl + (size : Int) ≥ limit := by omega
  simp only [h1, if_true]
  by_cases hs : size ≤ 1
  · have : limit - 1 ≤ tl := by omega
    simp [this, hs]
  · have : ¬ limit - 1 ≤ tl := by omega
    simp [this, hs]

/-- C20 (the code departs from the claim): for the 4x4 mask and a 4x4 window
with strides 4 the only position is the origin, whose nominal right and bottom
edges `0 + 4` equal the region's; the scan ends having evaluated the clamped
window `(0,0,3,3)` instead. For every input, an evaluated window ends at least
one pixel before the region's right and bottom edges. -/
theorem run_clamps_exact_fit :
    clampFar 0 4 4 = some 3 ∧
    ((SlidingWindow.create 4 4 4 4).runMask 2 (fun _ => false) mask4x4 50).1 = Status.done ∧
    ((SlidingWindow.create 4 4 4 4).runMask 2 (fun _ => false) mask4x4 50).2.trace.map
        (fun e => e.window) = [⟨0, 0, 3, 3⟩] ∧
    ∀ (fuel : Nat) (junk : Nat → Bool) (threshold : ℚ),
      ∀ e ∈ ((SlidingWindow.create 4 4 4 4).runMask fuel junk mask4x4 threshold).2.trace,
        e.window.x + e.window.width ≤ 3 ∧ e.window.y + e.window.height ≤ 3 := by
  refine ⟨by decide, by decide!, by decide!, ?_⟩
  intro fuel junk threshold e he
  have hg := run_window_geometry (SlidingWindow.create 4 4 4 4) (by decide) (by decide)
    fuel junk mask4x4 threshold ⟨0, 0, mask4x4.cols, mask4x4.rows⟩ e he
  simp only [mask4x4] at hg
  omega

theorem integral_get_none (m : Mat) {y x : Int}
    (h : y < 0 ∨ (m.rows : Int) < y ∨ x < 0 ∨ (m.cols : Int) < x) :
    (integral m).get y x = none := by
  unfold IntMat.get integral
  have hn : ¬ (0 ≤ y ∧ y < ((m.rows + 1 : Nat) : Int) ∧ 0 ≤ x ∧ x < ((m.cols + 1 : Nat) : Int)) := by
    push_cast
    omega
  simp only [hn, if_false]

/-- A query for a rectangle of positive width and height that is not inside the
mask reads outside the integral image. -/
theorem fillRatio_outOfBounds (m : Mat) (rect : Rect) (hw : 0 < rect.width)
    (hh : 0 < rect.height) (hout : ¬ rect.InMask m) (area : Nat) :
    SAT.fillRatio { sat := integral m, have_sat := true } rect area
      = .error Fault.outOfBounds := by
  have hcase : (integral m).get (rect.y + rect.height) (rect.x + rect.width) = none ∨
      (integral m).get rect.y rect.x = none := by
    by_cases h1 : rect.x < 0 ∨ rect.y < 0
    · right
      apply integral_get_none
      omega
    · left
      apply integral_get_none
      unfold Rect.InMask at hout
      omega
  unfold SAT.fillRatio
  simp only [Bool.not_true, Bool.false_eq_true, if_false]
  split
  · rename_i a b c d h1 h2 h3 h4
    rcases hcase with hc | hc
    · rw [hc] at h1; exact absurd h1 (by simp)
    · rw [hc] at h4; exact absurd h4 (by simp)
  · rfl

/-- C19 (the claim fails): for the 2x2 mask with every pixel on, the query for
the rectangle `(1,0,2,1)`, which straddles the right boundary, and the query
for `(5,5,1,1)`, which is fully outside, read outside the 3x3 integral image;
neither has a defined value. -/
theorem sat_fillRatio_outside_undefined :
    SAT.fillRatioRect { sat := integral mask2x2, have_sat := true } ⟨1, 0, 2, 1⟩
      = .error Fault.outOfBounds ∧
    SAT.fillRatioRect { sat := integral mask2x2, have_sat := true } ⟨5, 5, 1, 1⟩
      = .error Fault.outOfBounds ∧
    (integral mask2x2).get 1 3 = none ∧
    (integral mask2x2).get 6 6 = none := by
  refine ⟨by decide!, by decide!, by decide, by decide⟩

/-- C19 (amended): for a `CV_8U` binary mask and a rectangle of positive width
and height, `fillRatio(rect)` is defined exactly when the rectangle lies inside
the mask, and is then `100 * (on-pixels inside rect) / rect.area()`; for a
rectangle fully outside the mask or straddling its boundary a lookup falls
outside the integral image. -/
theorem sat_fillRatio_defined_iff_inside (m : Mat) (htype : m.type = CV_8U) (hb : m.Binary)
    (rect : Rect) (hw : 0 < rect.width) (hh : 0 < rect.height) :
    ∃ s, SAT.build m = .ok s ∧
      (rect.InMask m →
        s.fillRatioRect rect = .ok (100 * (m.onPixels rect : ℚ) / (rect.area : ℚ))) ∧
      (¬ rect.InMask m → s.fillRatioRect rect = .error Fault.outOfBounds) ∧
      ((∃ q, s.fillRatioRect rect = .ok q) ↔ rect.InMask m) := by
  have hpos : 0 < rect.area := Int.mul_pos hw hh
  have hin : rect.InMask m →
      SAT.fillRatioRect { sat := integral m, have_sat := true } rect
        = .ok (100 * (m.onPixels rect : ℚ) / (rect.area : ℚ)) := by
    intro hi
    have ha : 0 < rect.area.toNat := by omega
    have hcast : ((rect.area.toNat : Nat) : ℚ) = (rect.area : ℚ) := by
      have h : ((rect.area.toNat : Nat) : Int) = rect.area := Int.toNat_of_nonneg (le_of_lt hpos)
      exact_mod_cast congrArg (fun z : Int => (z : ℚ)) h
    rw [SAT.fillRatioRect, fillRatio_of_inMask m hb rect hi _ ha, hcast]
  have hout : ¬ rect.InMask m →
      SAT.fillRatioRect { sat := integral m, have_sat := true } rect
        = .error Fault.outOfBounds :=
    fun ho => fillRatio_outOfBounds m rect hw hh ho _
  refine ⟨{ sat := integral m, have_sat := true }, by simp [SAT.build, htype], hin, hout, ?_⟩
  constructor
  · rintro ⟨q, hq⟩
    by_contra hc
    rw [hout hc] at hq
    exact absurd hq (by simp)
  · intro hi
    exact ⟨_, hin hi⟩

/-- C19 (amended), at the 2x2 mask with every pixel on and the straddling
rectangle `(1,0,2,1)`. -/
theorem sat_fillRatio_defined_iff_inside_witness :
    ∃ s, SAT.build mask2x2 = .ok s ∧
      ((Rect.mk 1 0 2 1).InMask mask2x2 →
        s.fillRatioRect ⟨1, 0, 2, 1⟩
          = .ok (100 * (mask2x2.onPixels ⟨1, 0, 2, 1⟩ : ℚ) / ((Rect.mk 1 0 2 1).area : ℚ))) ∧
      (¬ (Rect.mk 1 0 2 1).InMask mask2x2 →
        s.fillRatioRect ⟨1, 0, 2, 1⟩ = .error Fault.outOfBounds) ∧
      ((∃ q, s.fillRatioRect ⟨1, 0, 2, 1⟩ = .ok q) ↔ (Rect.mk 1 0 2 1).InMask mask2x2) :=
  sat_fillRatio_defined_iff_inside mask2x2 rfl (fun _ _ _ _ => Or.inr rfl) ⟨1, 0, 2, 1⟩
    (by decide) (by decide)

/-! ## Lemmas on rectangle sums, on two runs and on what `push` keeps -/

/-- The value of a query for a rectangle inside the mask, for any 8-bit mask:
as in the code, `sum * 100.0 / area`. -/
theorem fillRatio_eq_rectSum (m : Mat) (rect : Rect) (hin : rect.InMask m) (area : Nat) :
    SAT.fillRatio { sat := integral m, have_sat := true } rect area
      = if area = 0 then .error Fault.nonFinite
        else .ok ((m.rectSum rect : ℚ) * 100 / (area : ℚ)) := by
  obtain ⟨hx0, hy0, hw0, hh0, hx1, hy1⟩ := hin
  have e1 := integral_get m (y := rect.y + rect.height) (x := rect.x + rect.width)
    (by omega) hy1 (by omega) hx1
  have e2 := integral_get m (y := rect.y + rect.height) (x := rect.x)
    (by omega) hy1 hx0 (by omega)
  have e3 := integral_get m (y := rect.y) (x := rect.x + rect.width)
    hy0 (by omega) (by omega) hx1
  have e4 := integral_get m (y := rect.y) (x := rect.x) hy0 (by omega) hx0 (by omega)
  have hsum := integralCell_four (fun i j => div255 (m.px i j))
    (show rect.y.toNat ≤ (rect.y + rect.height).toNat by omega)
    (show rect.x.toNat ≤ (rect.x + rect.width).toNat by omega)
  simp only [SAT.fillRatio, Bool.not_true, Bool.false_eq_true, if_false, e1, e2, e3, e4]
  rw [hsum]
  simp only [Mat.rectSum, Mat.sumOn, Int.cast_natCast]

theorem sumOn_add_cols (m : Mat) (r0 r1 : Nat) {c0 c1 c2 : Nat} (h1 : c0 ≤ c1) (h2 : c1 ≤ c2) :
    m.sumOn r0 r1 c0 c2 = m.sumOn r0 r1 c0 c1 + m.sumOn r0 r1 c1 c2 := by
  unfold Mat.sumOn
  rw [← Finset.sum_add_distrib]
  refine Finset.sum_congr rfl (fun i _ => ?_)
  exact (Finset.sum_Ico_consecutive _ h1 h2).symm

theorem sumOn_add_rows (m : Mat) {r0 r1 r2 : Nat} (c0 c1 : Nat) (h1 : r0 ≤ r1) (h2 : r1 ≤ r2) :
    m.sumOn r0 r2 c0 c1 = m.sumOn r0 r1 c0 c1 + m.sumOn r1 r2 c0 c1 := by
  unfold Mat.sumOn
  exact (Finset.sum_Ico_consecutive _ h1 h2).symm

/-- The rectangle sum only depends on the pixels inside the rectangle. -/
theorem sumOn_congr (m1 m2 : Mat) (r0 r1 c0 c1 : Nat)
    (h : ∀ i j, r0 ≤ i → i < r1 → c0 ≤ j → j < c1 → m1.px i j = m2.px i j) :
    m1.sumOn r0 r1 c0 c1 = m2.sumOn r0 r1 c0 c1 := by
  unfold Mat.sumOn
  refine Finset.sum_congr rfl (fun i hi => Finset.sum_congr rfl (fun j hj => ?_))
  rw [Finset.mem_Ico] at hi hj
  rw [h i j hi.1 hi.2 hj.1 hj.2]

/-- A far edge that was not a `break` is not before the near edge and is before
the limit, whatever the size. -/
theorem clampFar_some_le {tl : Int} {size : Nat} {limit br : Int}
    (h : clampFar tl size limit = some br) : tl ≤ br ∧ br ≤ limit - 1 := by
  unfold clampFar at h
  simp only at h
  split at h
  · split at h
    · exact absurd h (by simp)
    · simp only [Option.some.injEq] at h; omega
  · simp only [Option.some.injEq] at h; omega

theorem ofPoints_of_le {x1 y1 x2 y2 : Int} (hx : x1 ≤ x2) (hy : y1 ≤ y2) :
    Rect.ofPoints ⟨x1, y1⟩ ⟨x2, y2⟩ = ⟨x1, y1, x2 - x1, y2 - y1⟩ := by
  simp only [Rect.ofPoints, min_eq_left hx, min_eq_left hy, max_eq_right hx, max_eq_right hy]

/-- Relational rule for the inner loop: two runs whose states are related, and
whose window evaluations fail alike or keep the states related, end with the
same status and related states. -/
theorem scanRow_rel (sw : SlidingWindow) (sat1 sat2 : SAT) (threshold : ℚ)
    (junk1 junk2 : Nat → Bool) (width tl_y br_y lo : Int) (R : RunState → RunState → Prop)
    (hstep : ∀ (tl_x br_x : Int) (s1 s2 : RunState), lo ≤ tl_x → tl_x < width →
      clampFar tl_x sw.width width = some br_x → R s1 s2 →
      (∃ f, sw.visit sat1 threshold junk1 ⟨tl_x, tl_y⟩ ⟨br_x, br_y⟩ s1 = .error f ∧
        sw.visit sat2 threshold junk2 ⟨tl_x, tl_y⟩ ⟨br_x, br_y⟩ s2 = .error f) ∨
      (∃ a b, sw.visit sat1 threshold junk1 ⟨tl_x, tl_y⟩ ⟨br_x, br_y⟩ s1 = .ok a ∧
        sw.visit sat2 threshold junk2 ⟨tl_x, tl_y⟩ ⟨br_x, br_y⟩ s2 = .ok b ∧ R a b)) :
    ∀ (fuel : Nat) (tl_x : Int) (s1 s2 : RunState), lo ≤ tl_x → R s1 s2 →
      (sw.scanRow sat1 threshold junk1 width tl_y br_y fuel tl_x s1).1
        = (sw.scanRow sat2 threshold junk2 width tl_y br_y fuel tl_x s2).1 ∧
      R (sw.scanRow sat1 threshold junk1 width tl_y br_y fuel tl_x s1).2
        (sw.scanRow sat2 threshold junk2 width tl_y br_y fuel tl_x s2).2 := by
  intro fuel
  induction fuel with
  | zero => intro tl_x s1 s2 _ hR; exact ⟨rfl, hR⟩
  | succ fuel ih =>
    intro tl_x s1 s2 hlo hR
    rw [SlidingWindow.scanRow, SlidingWindow.scanRow]
    split
    · rename_i hlt
      cases hc : clampFar tl_x sw.width width with
      | none => exact ⟨rfl, hR⟩
      | some br_x =>
        simp only
        rcases hstep tl_x br_x s1 s2 hlo hlt hc hR with ⟨f, h1, h2⟩ | ⟨a, b, h1, h2, hab⟩
        · rw [h1, h2]; exact ⟨rfl, hR⟩
        · rw [h1, h2]; exact ih (tl_x + sw.step_x) a b (by omega) hab
    · exact ⟨rfl, hR⟩

/-- Relational rule for the loop over the rows. -/
theorem scanRows_rel (sw : SlidingWindow) (sat1 sat2 : SAT) (threshold : ℚ)
    (junk1 junk2 : Nat → Bool) (tile : Rect) (height width lo : Int) (inner : Nat)
    (R : RunState → RunState → Prop)
    (hstep : ∀ (tl_y br_y tl_x br_x : Int) (s1 s2 : RunState), lo ≤ tl_y → tl_y < height →
      clampFar tl_y sw.height height = some br_y → tile.x ≤ tl_x → tl_x < width →
      clampFar tl_x sw.width width = some br_x → R s1 s2 →
      (∃ f, sw.visit sat1 threshold junk1 ⟨tl_x, tl_y⟩ ⟨br_x, br_y⟩ s1 = .error f ∧
        sw.visit sat2 threshold junk2 ⟨tl_x, tl_y⟩ ⟨br_x, br_y⟩ s2 = .error f) ∨
      (∃ a b, sw.visit sat1 threshold junk1 ⟨tl_x, tl_y⟩ ⟨br_x, br_y⟩ s1 = .ok a ∧
        sw.visit sat2 threshold junk2 ⟨tl_x, tl_y⟩ ⟨br_x, br_y⟩ s2 = .ok b ∧ R a b)) :
    ∀ (fuel : Nat) (tl_y : Int) (s1 s2 : RunState), lo ≤ tl_y → R s1 s2 →
      (sw.scanRows sat1 threshold junk1 tile height width inner fuel tl_y s1).1
        = (sw.scanRows sat2 threshold junk2 tile height width inner fuel tl_y s2).1 ∧
      R (sw.scanRows sat1 threshold junk1 tile height width inner fuel tl_y s1).2
        (sw.scanRows sat2 threshold junk2 tile height width inner fuel tl_y s2).2 := by
  intro fuel
  induction fuel with
  | zero => intro tl_y s1 s2 _ hR; exact ⟨rfl, hR⟩
  | succ fuel ih =>
    intro tl_y s1 s2 hlo hR
    rw [SlidingWindow.scanRows, SlidingWindow.scanRows]
    split
    · rename_i hlt
      cases hc : clampFar tl_y sw.height height with
      | none => exact ⟨rfl, hR⟩
      | some br_y =>
        simp only
        have hrow := scanRow_rel sw sat1 sat2 threshold junk1 junk2 width tl_y br_y tile.x R
          (fun tl_x br_x a b h1 h2 h3 h4 =>
            hstep tl_y br_y tl_x br_x a b hlo hlt hc h1 h2 h3 h4)
          inner tile.x s1 s2 (le_refl _) hR
        cases hr1 : sw.scanRow sat1 threshold junk1 width tl_y br_y inner tile.x s1 with
        | mk t1 a =>
          cases hr2 : sw.scanRow sat2 threshold junk2 width tl_y br_y inner tile.x s2 with
          | mk t2 b =>
            rw [hr1, hr2] at hrow
            obtain ⟨ht, hab⟩ := hrow
            simp only at ht hab
            subst ht
            cases t1 with
            | done => exact ih (tl_y + sw.step_y) a b (by omega) hab
            | outOfFuel => exact ⟨rfl, hab⟩
            | fault e => exact ⟨rfl, hab⟩
    · exact ⟨rfl, hR⟩

/-- Relational rule for `run` on two masks of the same type. -/
theorem run_rel (sw : SlidingWindow) (fuel : Nat) (junk1 junk2 : Nat → Bool) (m1 m2 : Mat)
    (htype : m1.type = m2.type) (threshold : ℚ) (tile : Rect) (R : RunState → RunState → Prop)
    (hinit : R { bb := BoundingBoxVector.empty, trace := [] }
      { bb := BoundingBoxVector.empty, trace := [] })
    (hstep : ∀ (tl_y br_y tl_x br_x : Int) (s1 s2 : RunState), tile.y ≤ tl_y →
      tl_y < tile.y + tile.height →
      clampFar tl_y sw.height (tile.y + tile.height) = some br_y →
      tile.x ≤ tl_x → tl_x < tile.x + tile.width →
      clampFar tl_x sw.width (tile.x + tile.width) = some br_x → R s1 s2 →
      (∃ f, sw.visit { sat := integral m1, have_sat := true } threshold junk1
            ⟨tl_x, tl_y⟩ ⟨br_x, br_y⟩ s1 = .error f ∧
        sw.visit { sat := integral m2, have_sat := true } threshold junk2
            ⟨tl_x, tl_y⟩ ⟨br_x, br_y⟩ s2 = .error f) ∨
      (∃ a b, sw.visit { sat := integral m1, have_sat := true } threshold junk1
            ⟨tl_x, tl_y⟩ ⟨br_x, br_y⟩ s1 = .ok a ∧
        sw.visit { sat := integral m2, have_sat := true } threshold junk2
            ⟨tl_x, tl_y⟩ ⟨br_x, br_y⟩ s2 = .ok b ∧ R a b)) :
    (sw.run fuel junk1 m1 threshold tile).1 = (sw.run fuel junk2 m2 threshold tile).1 ∧
    R (sw.run fuel junk1 m1 threshold tile).2 (sw.run fuel junk2 m2 threshold tile).2 := by
  unfold SlidingWindow.run SAT.build
  by_cases ht : m1.type = CV_8U
  · have ht2 : m2.type = CV_8U := by rw [← htype]; exact ht
    simp only [ht, ht2, ne_eq, not_true_eq_false, if_false]
    exact scanRows_rel sw _ _ threshold junk1 junk2 tile _ _ tile.y fuel R hstep fuel tile.y
      _ _ (le_refl _) hinit
  · have ht2 : ¬ m2.type = CV_8U := by rw [← htype]; exact ht
    simp only [ht, ht2, ne_eq, not_false_eq_true, if_true]
    exact ⟨trivial, hinit⟩

/-- What `visit` does in terms of the query alone. -/
theorem visit_eq (sw : SlidingWindow) (sat : SAT) (threshold : ℚ) (junk : Nat → Bool)
    (tl br : Point) (st : RunState) :
    sw.visit sat threshold junk tl br st
      = match sat.fillRatio (Rect.ofPoints tl br) sw.area with
        | .error f => .error f
        | .ok f =>
          .ok { bb := if f > threshold
                  then st.bb.push (junk st.trace.length) (Rect.ofPoints tl br) f else st.bb
                trace := st.trace ++ [{ window := Rect.ofPoints tl br, fill_ratio := f,
                                        pushed := decide (f > threshold) }] } := by
  unfold SlidingWindow.visit
  simp only
  cases sat.fillRatio (Rect.ofPoints tl br) sw.area with
  | error e => rfl
  | ok f =>
    simp only
    by_cases hgt : f > threshold <;> simp [hgt]

/-- The status and the windows evaluated do not depend on the indeterminate
values of `found`. -/
theorem run_trace_junk_irrelevant (sw : SlidingWindow) (fuel : Nat) (junk1 junk2 : Nat → Bool)
    (mask : Mat) (threshold : ℚ) (tile : Rect) :
    (sw.run fuel junk1 mask threshold tile).1 = (sw.run fuel junk2 mask threshold tile).1 ∧
    (sw.run fuel junk1 mask threshold tile).2.trace
      = (sw.run fuel junk2 mask threshold tile).2.trace := by
  apply run_rel sw fuel junk1 junk2 mask mask rfl threshold tile
    (fun s1 s2 => s1.trace = s2.trace) rfl
  intro tl_y br_y tl_x br_x s1 s2 _ _ _ _ _ _ hR
  rw [visit_eq, visit_eq]
  cases hf : SAT.fillRatio { sat := integral mask, have_sat := true }
      (Rect.ofPoints ⟨tl_x, tl_y⟩ ⟨br_x, br_y⟩) sw.area with
  | error e => exact Or.inl ⟨e, rfl, rfl⟩
  | ok f =>
    refine Or.inr ⟨_, _, rfl, rfl, ?_⟩
    simp only [hR]

/-- A fault that no window evaluation raises is not the status of the inner
loop. -/
theorem scanRow_no_fault (sw : SlidingWindow) (sat : SAT) (threshold : ℚ) (junk : Nat → Bool)
    (width tl_y br_y lo : Int) (f0 : Fault)
    (hv : ∀ (tl_x br_x : Int) (st : RunState), lo ≤ tl_x → tl_x < width →
      clampFar tl_x sw.width width = some br_x →
      sw.visit sat threshold junk ⟨tl_x, tl_y⟩ ⟨br_x, br_y⟩ st ≠ .error f0) :
    ∀ (fuel : Nat) (tl_x : Int) (st : RunState), lo ≤ tl_x →
      (sw.scanRow sat threshold junk width tl_y br_y fuel tl_x st).1 ≠ Status.fault f0 := by
  intro fuel
  induction fuel with
  | zero => intro tl_x st _; simp [SlidingWindow.scanRow]
  | succ fuel ih =>
    intro tl_x st hlo
    rw [SlidingWindow.scanRow]
    split
    · rename_i hlt
      cases hc : clampFar tl_x sw.width width with
      | none => simp
      | some br_x =>
        simp only
        cases hvis : sw.visit sat threshold junk ⟨tl_x, tl_y⟩ ⟨br_x, br_y⟩ st with
        | error e =>
          simp only
          intro h
          injection h with h
          exact hv tl_x br_x st hlo hlt hc (by rw [hvis, h])
        | ok st1 => exact ih (tl_x + sw.step_x) st1 (by omega)
    · simp

/-- A fault that no window evaluation raises is not the status of the loop over
the rows. -/
theorem scanRows_no_fault (sw : SlidingWindow) (sat : SAT) (threshold : ℚ) (junk : Nat → Bool)
    (tile : Rect) (height width lo : Int) (inner : Nat) (f0 : Fault)
    (hv : ∀ (tl_y br_y tl_x br_x : Int) (st : RunState), lo ≤ tl_y → tl_y < height →
      clampFar tl_y sw.height height = some br_y → tile.x ≤ tl_x → tl_x < width →
      clampFar tl_x sw.width width = some br_x →
      sw.visit sat threshold junk ⟨tl_x, tl_y⟩ ⟨br_x, br_y⟩ st ≠ .error f0) :
    ∀ (fuel : Nat) (tl_y : Int) (st : RunState), lo ≤ tl_y →
      (sw.scanRows sat threshold junk tile height width inner fuel tl_y st).1
        ≠ Status.fault f0 := by
  intro fuel
  induction fuel with
  | zero => intro tl_y st _; simp [SlidingWindow.scanRows]
  | succ fuel ih =>
    intro tl_y st hlo
    rw [SlidingWindow.scanRows]
    split
    · rename_i hlt
      cases hc : clampFar tl_y sw.height height with
      | none => simp
      | some br_y =>
        simp only
        have hrow := scanRow_no_fault sw sat threshold junk width tl_y br_y tile.x f0
          (fun tl_x br_x st h1 h2 h3 => hv tl_y br_y tl_x br_x st hlo hlt hc h1 h2 h3)
          inner tile.x st (le_refl _)
        cases hr : sw.scanRow sat threshold junk width tl_y br_y inner tile.x st with
        | mk s st1 =>
          rw [hr] at hrow
          cases s with
          | done => exact ih (tl_y + sw.step_y) st1 (by omega)
          | outOfFuel => simp
          | fault e => exact hrow
    · simp

/-- The windows of a scan of a region inside the mask are inside the mask,
whatever the window size. -/
theorem window_inMask {mask : Mat} {tile : Rect} {tl_x tl_y br_x br_y : Int} {w h : Nat}
    (hx0 : 0 ≤ tile.x) (hy0 : 0 ≤ tile.y) (hx1 : tile.x + tile.width ≤ mask.cols)
    (hy1 : tile.y + tile.height ≤ mask.rows) (h1 : tile.y ≤ tl_y)
    (h3 : clampFar tl_y h (tile.y + tile.height) = some br_y) (h4 : tile.x ≤ tl_x)
    (h6 : clampFar tl_x w (tile.x + tile.width) = some br_x) :
    Rect.ofPoints ⟨tl_x, tl_y⟩ ⟨br_x, br_y⟩ = ⟨tl_x, tl_y, br_x - tl_x, br_y - tl_y⟩ ∧
    (Rect.mk tl_x tl_y (br_x - tl_x) (br_y - tl_y)).InMask mask := by
  have hy := clampFar_some_le h3
  have hx := clampFar_some_le h6
  refine ⟨ofPoints_of_le hx.1 hy.1, ?_⟩
  unfold Rect.InMask
  simp only
  omega

/-- A scan of a region inside a `CV_8U` mask never reads outside the integral
image. -/
theorem run_no_outOfBounds (sw : SlidingWindow) (fuel : Nat) (junk : Nat → Bool) (mask : Mat)
    (threshold : ℚ) (tile : Rect) (hx0 : 0 ≤ tile.x) (hy0 : 0 ≤ tile.y)
    (hx1 : tile.x + tile.width ≤ mask.cols) (hy1 : tile.y + tile.height ≤ mask.rows) :
    (sw.run fuel junk mask threshold tile).1 ≠ Status.fault Fault.outOfBounds := by
  unfold SlidingWindow.run SAT.build
  by_cases ht : mask.type = CV_8U
  · simp only [ht, ne_eq, not_true_eq_false, if_false]
    apply scanRows_no_fault sw _ threshold junk tile _ _ tile.y fuel Fault.outOfBounds _ fuel
      tile.y _ (le_refl _)
    intro tl_y br_y tl_x br_x st h1 _ h3 h4 _ h6
    obtain ⟨hw, hin⟩ := window_inMask hx0 hy0 hx1 hy1 h1 h3 h4 h6
    rw [visit_eq, hw, fillRatio_eq_rectSum mask _ hin]
    by_cases ha : sw.area = 0
    · simp [ha]
    · simp [ha]
  · simp [ht]

/-! ### Properties kept by `push` -/

theorem pushLoop_forall (P : BoundingBox → Prop) (rect : Rect) (r : ℚ)
    (hexp : ∀ b, P b → P (b.expand rect r)) :
    ∀ (l : List BoundingBox) (found : Bool), (∀ b ∈ l, P b) →
      ∀ b ∈ (pushLoop rect r l found).1, P b := by
  intro l
  induction l with
  | nil => intro found _ b hb; exact absurd hb (List.not_mem_nil b)
  | cons x rest ih =>
    intro found hall
    have hx : P x := hall x (List.mem_cons_self _ _)
    have hrest : ∀ b ∈ rest, P b := fun b hb => hall b (List.mem_cons_of_mem _ hb)
    have hx2 : P (x.expandIfIntersect rect r).2 := by
      unfold BoundingBox.expandIfIntersect
      simp only
      split
      · exact hexp x hx
      · exact hx
    rw [pushLoop]
    simp only
    split
    · intro b hb
      rcases List.mem_cons.mp hb with hb | hb
      · rw [hb]; exact hx2
      · exact hrest b hb
    · intro b hb
      rcases List.mem_cons.mp hb with hb | hb
      · rw [hb]; exact hx2
      · exact ih _ hrest b hb

/-- A property of boxes that holds of the new box and is kept by `expand` is
kept by `push`. -/
theorem push_forall (P : BoundingBox → Prop) (v : BoundingBoxVector) (found0 : Bool)
    (rect : Rect) (r : ℚ) (hall : ∀ b ∈ v.vector, P b) (hnew : P (BoundingBox.create rect r))
    (hexp : ∀ b, P b → P (b.expand rect r)) :
    ∀ b ∈ (v.push found0 rect r).vector, P b := by
  have hl := pushLoop_forall P rect r hexp v.vector found0 hall
  unfold BoundingBoxVector.push
  simp only
  split
  · intro b hb
    simp only [List.mem_append, List.mem_singleton] at hb
    rcases hb with hb | hb
    · exact hl b hb
    · rw [hb]; exact hnew
  · exact hl

/-- On a non-empty vector `push` does not read the initial value of `found`,
and the vector stays non-empty. -/
theorem push_nonempty (v : BoundingBoxVector) (a b : Bool) (rect : Rect) (r : ℚ)
    (hne : v.vector ≠ []) :
    v.push a rect r = v.push b rect r ∧ (v.push a rect r).vector ≠ [] := by
  unfold BoundingBoxVector.push
  cases hv : v.vector with
  | nil => exact absurd hv hne
  | cons x rest =>
    have hloop : pushLoop rect r (x :: rest) a = pushLoop rect r (x :: rest) b := by
      rw [pushLoop, pushLoop]
    have hk : (pushLoop rect r (x :: rest) b).1 ≠ [] := by
      rw [pushLoop]
      simp only
      split <;> simp
    simp only [hloop]
    refine ⟨trivial, ?_⟩
    split
    · simp
    · exact hk

theorem union_within {a b t : Rect} (ha : a.Within t) (hb : b.Within t) :
    (a.union b).Within t := by
  unfold Rect.Within Rect.union at *
  simp only
  refine ⟨?_, ?_, ?_, ?_⟩ <;> omega

/-! ## The claims on the scan as a whole, on file names and on additivity -/

theorem onCount_le (m : Mat) (r0 r1 c0 c1 : Nat) :
    m.onCount r0 r1 c0 c1 ≤ (r1 - r0) * (c1 - c0) := by
  unfold Mat.onCount
  calc ((Finset.Ico r0 r1 ×ˢ Finset.Ico c0 c1).filter (fun p => m.px p.1 p.2 = 255)).card
      ≤ (Finset.Ico r0 r1 ×ˢ Finset.Ico c0 c1).card := Finset.card_filter_le _ _
    _ = (r1 - r0) * (c1 - c0) := by simp

/-- C27: for a region inside a `CV_8U` mask and a window of width and height at
least 1, whatever the strides, `run` never reads outside the
`(rows+1) x (cols+1)` integral image: each evaluated window has
`0 <= x1 <= x2 <= cols` and `0 <= y1 <= y2 <= rows`, so its four lookups return
a cell, and in fact `x2 <= region.x + region.width - 1` and
`y2 <= region.y + region.height - 1`. -/
theorem run_lookups_in_table (sw : SlidingWindow) (hw : 1 ≤ sw.width) (hh : 1 ≤ sw.height)
    (fuel : Nat) (junk : Nat → Bool) (mask : Mat) (threshold : ℚ) (region : Rect)
    (hx0 : 0 ≤ region.x) (hy0 : 0 ≤ region.y)
    (hx1 : region.x + region.width ≤ mask.cols) (hy1 : region.y + region.height ≤ mask.rows) :
    (sw.run fuel junk mask threshold region).1 ≠ Status.fault Fault.outOfBounds ∧
    ∀ e ∈ (sw.run fuel junk mask threshold region).2.trace,
      (0 ≤ e.window.x ∧ e.window.x ≤ e.window.x + e.window.width ∧
        e.window.x + e.window.width ≤ mask.cols) ∧
      (0 ≤ e.window.y ∧ e.window.y ≤ e.window.y + e.window.height ∧
        e.window.y + e.window.height ≤ mask.rows) ∧
      ((integral mask).get (e.window.y + e.window.height) (e.window.x + e.window.width)).isSome ∧
      ((integral mask).get (e.window.y + e.window.height) e.window.x).isSome ∧
      ((integral mask).get e.window.y (e.window.x + e.window.width)).isSome ∧
      ((integral mask).get e.window.y e.window.x).isSome ∧
      e.window.x + e.window.width ≤ region.x + region.width - 1 ∧
      e.window.y + e.window.height ≤ region.y + region.height - 1 := by
  refine ⟨run_no_outOfBounds sw fuel junk mask threshold region hx0 hy0 hx1 hy1, ?_⟩
  intro e he
  have hg := run_window_geometry sw hw hh fuel junk mask threshold region e he
  refine ⟨by omega, by omega, ?_, ?_, ?_, ?_, by omega, by omega⟩
  · rw [integral_get mask (by omega) (by omega) (by omega) (by omega)]; rfl
  · rw [integral_get mask (by omega) (by omega) (by omega) (by omega)]; rfl
  · rw [integral_get mask (by omega) (by omega) (by omega) (by omega)]; rfl
  · rw [integral_get mask (by omega) (by omega) (by omega) (by omega)]; rfl

/-- C27, at the 10x10 mask, a 4x4 window with strides 4 and the whole mask as
region: the run does not read outside the table, and the last evaluated window
`(8,8,1,1)` has its far corner at `(9,9)`. -/
theorem run_lookups_in_table_witness :
    ((SlidingWindow.create 4 4 4 4).run 6 (fun _ => false) mask10x10 50 ⟨0, 0, 10, 10⟩).1
      ≠ Status.fault Fault.outOfBounds ∧
    (8 : Int) + 1 ≤ 0 + 10 - 1 ∧ (8 : Int) + 1 ≤ 0 + 10 - 1 :=
  ⟨(run_lookups_in_table (SlidingWindow.create 4 4 4 4) (by decide) (by decide) 6
      (fun _ => false) mask10x10 50 ⟨0, 0, 10, 10⟩ (by decide) (by decide) (by decide)
      (by decide)).1,
   ((run_lookups_in_table (SlidingWindow.create 4 4 4 4) (by decide) (by decide) 6
      (fun _ => false) mask10x10 50 ⟨0, 0, 10, 10⟩ (by decide) (by decide) (by decide)
      (by decide)).2
      { window := ⟨8, 8, 1, 1⟩, fill_ratio := 25 / 4, pushed := false } (by decide!)).2.2.2.2.2.2⟩

/-- What `expand` keeps: a ratio above the threshold and at most 100, and the
two rectangles within the region. -/
theorem expand_keeps_bounds {threshold : ℚ} {tile rect : Rect} {r : ℚ} (hr1 : threshold < r)
    (hr2 : r ≤ 100) (hrect : rect.Within tile) (b : BoundingBox)
    (hb : threshold < b.fill_ratio ∧ b.fill_ratio ≤ 100 ∧ b.bounding_box.Within tile ∧
      b.best_fit_box.Within tile) :
    threshold < (b.expand rect r).fill_ratio ∧ (b.expand rect r).fill_ratio ≤ 100 ∧
      (b.expand rect r).bounding_box.Within tile ∧ (b.expand rect r).best_fit_box.Within tile := by
  obtain ⟨h1, h2, h3, h4⟩ := hb
  have hu : (b.expand rect r).bounding_box.Within tile := by
    rw [expand_bounding_box]; exact union_within h3 hrect
  refine ⟨?_, ?_, hu, ?_⟩
  · unfold BoundingBox.expand; simp only; split
    · exact h1
    · exact hr1
  · unfold BoundingBox.expand; simp only; split
    · exact h2
    · exact hr2
  · unfold BoundingBox.expand; simp only; split
    · exact h4
    · exact hrect

/-- C28: for a binary mask, a region inside the mask and a window of width and
height at least 1 with `area = width * height`, every box of the set `run`
holds, however far the run got, stores a best fill ratio `f` with
`threshold < f <= 100` and has its union rectangle and its best rectangle
inside the region; so the set is empty when `threshold >= 100`; and with
strides of at least 1 the run ends, for every fuel above the region's width and
height. -/
theorem run_boxes_bounds (sw : SlidingWindow) (hw : 1 ≤ sw.width) (hh : 1 ≤ sw.height)
    (harea : sw.area = sw.width * sw.height) (hsx : 1 ≤ sw.step_x) (hsy : 1 ≤ sw.step_y)
    (fuel : Nat) (junk : Nat → Bool) (mask : Mat) (htype : mask.type = CV_8U)
    (hb : mask.Binary) (threshold : ℚ) (region : Rect) (hregion : region.InMask mask) :
    (∀ b ∈ (sw.run fuel junk mask threshold region).2.bb.vector,
      threshold < b.fill_ratio ∧ b.fill_ratio ≤ 100 ∧
      b.bounding_box.Within region ∧ b.best_fit_box.Within region) ∧
    (100 ≤ threshold → (sw.run fuel junk mask threshold region).2.bb.vector = []) ∧
    (region.width ≤ fuel → region.height ≤ fuel →
      (sw.run (fuel + 1) junk mask threshold region).1 = Status.done) := by
  have hmain : ∀ b ∈ (sw.run fuel junk mask threshold region).2.bb.vector,
      threshold < b.fill_ratio ∧ b.fill_ratio ≤ 100 ∧
      b.bounding_box.Within region ∧ b.best_fit_box.Within region := by
    apply run_inv sw fuel junk mask threshold region
      (fun st => ∀ b ∈ st.bb.vector, threshold < b.fill_ratio ∧ b.fill_ratio ≤ 100 ∧
        b.bounding_box.Within region ∧ b.best_fit_box.Within region)
    · intro b hb0
      exact absurd hb0 (List.not_mem_nil b)
    · intro tl_y br_y tl_x br_x st st1 _ h1 _ h3 h4 _ h6 hst hv
      obtain ⟨f, hf, _, hbb⟩ := visit_ok hv
      obtain ⟨hx0, hy0, _, _, hx1, hy1⟩ := hregion
      obtain ⟨hwin, hin⟩ := window_inMask hx0 hy0 hx1 hy1 h1 h3 h4 h6
      have hy := clampFar_some hh h3
      have hx := clampFar_some hw h6
      rw [hbb]
      by_cases hgt : f > threshold
      · simp only [hgt, if_true]
        have hpos : 0 < sw.area := by rw [harea]; exact Nat.mul_pos hw hh
        rw [hwin, fillRatio_of_inMask mask hb _ hin sw.area hpos] at hf
        have hfe := (Except.ok.inj hf).symm
        have hon : mask.onPixels ⟨tl_x, tl_y, br_x - tl_x, br_y - tl_y⟩ ≤ sw.area := by
          unfold Mat.onPixels
          refine le_trans (onCount_le mask _ _ _ _) ?_
          rw [harea, Nat.mul_comm sw.width sw.height]
          apply Nat.mul_le_mul <;> simp only <;> omega
        have hle : f ≤ 100 := by
          rw [hfe]
          have hq : (0 : ℚ) < (sw.area : ℚ) := by exact_mod_cast hpos
          rw [div_le_iff₀ hq]
          have : (mask.onPixels ⟨tl_x, tl_y, br_x - tl_x, br_y - tl_y⟩ : ℚ) ≤ (sw.area : ℚ) := by
            exact_mod_cast hon
          linarith
        have hwithin : (Rect.ofPoints ⟨tl_x, tl_y⟩ ⟨br_x, br_y⟩).Within region := by
          rw [hwin]
          unfold Rect.Within
          simp only
          omega
        exact push_forall _ st.bb _ _ f hst ⟨hgt, hle, hwithin, hwithin⟩
          (expand_keeps_bounds hgt hle hwithin)
      · simp only [hgt, if_false]
        exact hst
  refine ⟨hmain, ?_, ?_⟩
  · intro hthr
    cases hvec : (sw.run fuel junk mask threshold region).2.bb.vector with
    | nil => rfl
    | cons b rest =>
      have hb1 := hmain b (by rw [hvec]; exact List.mem_cons_self _ _)
      exact absurd (lt_of_lt_of_le hb1.1 hb1.2.1) (not_lt.mpr hthr)
  · intro hfw hfh
    have hpos : 0 < sw.area := by rw [harea]; exact Nat.mul_pos hw hh
    exact run_terminates sw hw hh hpos hsx hsy junk mask htype threshold region hregion fuel
      hfw hfh

/-- C28, at the 10x10 mask with every pixel on, a 4x4 window with strides 4,
the threshold 50 and the whole mask as region. -/
theorem run_boxes_bounds_witness :
    (∀ b ∈ ((SlidingWindow.create 4 4 4 4).run 10 (fun _ => false) mask10x10 50
        ⟨0, 0, 10, 10⟩).2.bb.vector,
      (50 : ℚ) < b.fill_ratio ∧ b.fill_ratio ≤ 100 ∧
      b.bounding_box.Within ⟨0, 0, 10, 10⟩ ∧ b.best_fit_box.Within ⟨0, 0, 10, 10⟩) ∧
    ((100 : ℚ) ≤ 50 → ((SlidingWindow.create 4 4 4 4).run 10 (fun _ => false) mask10x10 50
        ⟨0, 0, 10, 10⟩).2.bb.vector = []) ∧
    ((10 : Int) ≤ (10 : Nat) → (10 : Int) ≤ (10 : Nat) →
      ((SlidingWindow.create 4 4 4 4).run (10 + 1) (fun _ => false) mask10x10 50
        ⟨0, 0, 10, 10⟩).1 = Status.done) :=
  run_boxes_bounds (SlidingWindow.create 4 4 4 4) (by decide) (by decide) rfl (by decide)
    (by decide) 10 (fun _ => false) mask10x10 rfl (fun _ _ _ _ => Or.inr rfl) 50
    ⟨0, 0, 10, 10⟩ (by decide)

/-- Tile locality when the indeterminate values of `found` are the same in the
two runs: for two masks of the same type and size that agree on the pixels of a
region inside them, the two scans of the region end alike, with the same
windows, ratios and boxes. -/
theorem run_local (sw : SlidingWindow) (fuel : Nat) (junk : Nat → Bool) (m1 m2 : Mat)
    (htype : m1.type = m2.type) (hrows : m1.rows = m2.rows) (hcols : m1.cols = m2.cols)
    (threshold : ℚ) (tile : Rect) (hx0 : 0 ≤ tile.x) (hy0 : 0 ≤ tile.y)
    (hx1 : tile.x + tile.width ≤ m1.cols) (hy1 : tile.y + tile.height ≤ m1.rows)
    (hagree : ∀ i j : Nat, tile.y ≤ i → (i : Int) < tile.y + tile.height → tile.x ≤ j →
      (j : Int) < tile.x + tile.width → m1.px i j = m2.px i j) :
    sw.run fuel junk m1 threshold tile = sw.run fuel junk m2 threshold tile := by
  have h := run_rel sw fuel junk junk m1 m2 htype threshold tile (fun a b => a = b) rfl ?_
  · exact Prod.ext h.1 h.2
  · intro tl_y br_y tl_x br_x s1 s2 h1 _ h3 h4 _ h6 hR
    subst hR
    obtain ⟨hwin, hin1⟩ := @window_inMask m1 tile tl_x tl_y br_x br_y sw.width sw.height hx0 hy0 hx1 hy1 h1 h3 h4 h6
    obtain ⟨_, hin2⟩ := @window_inMask m2 tile tl_x tl_y br_x br_y sw.width sw.height hx0 hy0
      (by rw [← hcols]; exact hx1)
      (by rw [← hrows]; exact hy1) h1 h3 h4 h6
    have hy := clampFar_some_le h3
    have hx := clampFar_some_le h6
    have hsum : m1.rectSum ⟨tl_x, tl_y, br_x - tl_x, br_y - tl_y⟩
        = m2.rectSum ⟨tl_x, tl_y, br_x - tl_x, br_y - tl_y⟩ := by
      unfold Mat.rectSum
      apply sumOn_congr
      intro i j hi0 hi1 hj0 hj1
      simp only at hi0 hi1 hj0 hj1
      exact hagree i j (by omega) (by omega) (by omega) (by omega)
    have hfr : SAT.fillRatio { sat := integral m1, have_sat := true }
          (Rect.ofPoints ⟨tl_x, tl_y⟩ ⟨br_x, br_y⟩) sw.area
        = SAT.fillRatio { sat := integral m2, have_sat := true }
          (Rect.ofPoints ⟨tl_x, tl_y⟩ ⟨br_x, br_y⟩) sw.area := by
      rw [hwin, fillRatio_eq_rectSum m1 _ hin1, fillRatio_eq_rectSum m2 _ hin2, hsum]
    rw [visit_eq, visit_eq, hfr]
    cases hf : SAT.fillRatio { sat := integral m2, have_sat := true }
        (Rect.ofPoints ⟨tl_x, tl_y⟩ ⟨br_x, br_y⟩) sw.area with
    | error e => exact Or.inl ⟨e, rfl, rfl⟩
    | ok f => exact Or.inr ⟨_, _, rfl, rfl, rfl⟩

/-- C29 (the code departs from the claim): the masks `mask10x10` and
`mask10x10Corner` agree on the region `(0,0,8,8)`; the scans of that region
with a 4x4 window, strides 4 and threshold 50 evaluate the same windows, but
when the uninitialised `found` of the first `push` is clear in one run and set
in the other, the first returns four boxes and the second three. -/
theorem run_not_local_with_uninitialised_found :
    (∀ i j : Nat, i < 8 → j < 8 → mask10x10.px i j = mask10x10Corner.px i j) ∧
    ((SlidingWindow.create 4 4 4 4).run 6 (fun _ => false) mask10x10 50
        ⟨0, 0, 8, 8⟩).2.trace
      = ((SlidingWindow.create 4 4 4 4).run 6 (fun k => decide (k = 0)) mask10x10Corner 50
        ⟨0, 0, 8, 8⟩).2.trace ∧
    ((SlidingWindow.create 4 4 4 4).run 6 (fun _ => false) mask10x10 50
        ⟨0, 0, 8, 8⟩).2.bb.vector.map (fun b => b.bounding_box)
      = [⟨0, 0, 4, 4⟩, ⟨4, 0, 3, 4⟩, ⟨0, 4, 4, 3⟩, ⟨4, 4, 3, 3⟩] ∧
    ((SlidingWindow.create 4 4 4 4).run 6 (fun k => decide (k = 0)) mask10x10Corner 50
        ⟨0, 0, 8, 8⟩).2.bb.vector.map (fun b => b.bounding_box)
      = [⟨4, 0, 3, 4⟩, ⟨0, 4, 4, 3⟩, ⟨4, 4, 3, 3⟩] := by
  refine ⟨?_, by decide!, by decide!, by decide!⟩
  intro i j hi hj
  simp [mask10x10, mask10x10Corner, hi, hj]

/-- A property of boxes that every recorded push establishes for a new box and
keeps under `expand` holds of every box after the replay. -/
theorem replayFrom_forall (P : BoundingBox → Prop) (junk : Nat → Bool) :
    ∀ (es : List Eval) (k : Nat) (bb : BoundingBoxVector), (∀ b ∈ bb.vector, P b) →
      (∀ e ∈ es, e.pushed = true →
        P (BoundingBox.create e.window e.fill_ratio) ∧
        ∀ b, P b → P (b.expand e.window e.fill_ratio)) →
      ∀ b ∈ (replayFrom junk k es bb).vector, P b := by
  intro es
  induction es with
  | nil => intro k bb hbb _; exact hbb
  | cons e es ih =>
    intro k bb hbb hes
    rw [replayFrom]
    apply ih
    · by_cases hp : e.pushed = true
      · simp only [hp, if_true]
        have h := hes e (List.mem_cons_self _ _) hp
        exact push_forall P bb _ _ _ hbb h.1 h.2
      · simp only [hp, Bool.false_eq_true, if_false]
        exact hbb
    · exact fun x hx => hes x (List.mem_cons_of_mem _ hx)

/-- From a non-empty vector on, the replay does not depend on the indeterminate
values of `found`. -/
theorem replayFrom_nonempty (junk1 junk2 : Nat → Bool) :
    ∀ (es : List Eval) (k : Nat) (bb : BoundingBoxVector), bb.vector ≠ [] →
      replayFrom junk1 k es bb = replayFrom junk2 k es bb := by
  intro es
  induction es with
  | nil => intro k bb _; rfl
  | cons e es ih =>
    intro k bb hne
    rw [replayFrom, replayFrom]
    by_cases hp : e.pushed = true
    · simp only [hp, if_true]
      have h := push_nonempty bb (junk1 k) (junk2 k) e.window e.fill_ratio hne
      rw [← h.1]
      exact ih (k + 1) _ h.2
    · simp only [hp, Bool.false_eq_true, if_false]
      exact ih (k + 1) bb hne

/-- The scan of the 10x10 mask with every pixel on by a 4x4 window with strides
4 and threshold 50: it ends, having evaluated these nine windows. -/
theorem run_mask10x10 (junk : Nat → Bool) :
    ((SlidingWindow.create 4 4 4 4).runMask 6 junk mask10x10 50).1 = Status.done ∧
    ((SlidingWindow.create 4 4 4 4).runMask 6 junk mask10x10 50).2.trace
      = [⟨⟨0, 0, 4, 4⟩, 100, true⟩, ⟨⟨4, 0, 4, 4⟩, 100, true⟩, ⟨⟨8, 0, 1, 4⟩, 25, false⟩,
         ⟨⟨0, 4, 4, 4⟩, 100, true⟩, ⟨⟨4, 4, 4, 4⟩, 100, true⟩, ⟨⟨8, 4, 1, 4⟩, 25, false⟩,
         ⟨⟨0, 8, 4, 1⟩, 25, false⟩, ⟨⟨4, 8, 4, 1⟩, 25, false⟩,
         ⟨⟨8, 8, 1, 1⟩, 25 / 4, false⟩] := by
  have h := run_trace_junk_irrelevant (SlidingWindow.create 4 4 4 4) 6 junk (fun _ => false)
    mask10x10 50 ⟨0, 0, mask10x10.cols, mask10x10.rows⟩
  unfold SlidingWindow.runMask
  rw [h.1, h.2]
  exact ⟨by decide!, by decide!⟩

/-- C21 (the claim fails): in the scan of the 10x10 mask with every pixel on by
a 4x4 window with strides 4 and threshold 50, the window `(8,0,1,4)` at the
right edge is evaluated with the ratio 25 and is not pushed, and no returned
box contains the pixel in row 9, column 9, or the one in row 8, column 8. -/
theorem run_mask10x10_edge_windows_fail :
    (⟨⟨8, 0, 1, 4⟩, 25, false⟩ : Eval)
      ∈ ((SlidingWindow.create 4 4 4 4).runMask 6 (fun _ => false) mask10x10 50).2.trace ∧
    (∀ b ∈ ((SlidingWindow.create 4 4 4 4).runMask 6 (fun _ => false) mask10x10 50).2.bb.vector,
      ¬ b.bounding_box.Covers 9 9 ∧ ¬ b.bounding_box.Covers 8 8) := by
  refine ⟨by decide!, by decide!⟩

/-- C21 (amended): in that scan nine windows are evaluated; the four of the
full size 4x4, at `(0,0)`, `(4,0)`, `(0,4)` and `(4,4)`, score 100 and are
pushed; the windows clamped at the right and bottom edges are scored against
the nominal area 16, score at most 50 and are not pushed; every returned box
lies within `(0,0,8,8)`; and when the first push is not lost the boxes are the
four full windows. -/
theorem run_mask10x10_full_windows (junk : Nat → Bool) :
    ((SlidingWindow.create 4 4 4 4).runMask 6 junk mask10x10 50).1 = Status.done ∧
    ((SlidingWindow.create 4 4 4 4).runMask 6 junk mask10x10 50).2.trace.length = 9 ∧
    (∀ e ∈ ((SlidingWindow.create 4 4 4 4).runMask 6 junk mask10x10 50).2.trace,
      (e.window.width = 4 ∧ e.window.height = 4 → e.fill_ratio = 100 ∧ e.pushed = true) ∧
      (e.window.width < 4 ∨ e.window.height < 4 →
        e.fill_ratio = 100 * (mask10x10.onPixels e.window : ℚ) / 16 ∧
        e.fill_ratio ≤ 50 ∧ e.pushed = false)) ∧
    (∀ w ∈ [(⟨0, 0, 4, 4⟩ : Rect), ⟨4, 0, 4, 4⟩, ⟨0, 4, 4, 4⟩, ⟨4, 4, 4, 4⟩],
      ∃ e ∈ ((SlidingWindow.create 4 4 4 4).runMask 6 junk mask10x10 50).2.trace,
        e.window = w) ∧
    (∀ b ∈ ((SlidingWindow.create 4 4 4 4).runMask 6 junk mask10x10 50).2.bb.vector,
      b.bounding_box.Within ⟨0, 0, 8, 8⟩) ∧
    (junk 0 = false →
      ((SlidingWindow.create 4 4 4 4).runMask 6 junk mask10x10 50).2.bb.vector.map
          (fun b => b.bounding_box)
        = [⟨0, 0, 4, 4⟩, ⟨4, 0, 4, 4⟩, ⟨0, 4, 4, 4⟩, ⟨4, 4, 4, 4⟩]) := by
  obtain ⟨hstatus, htrace⟩ := run_mask10x10 junk
  have hbb : ((SlidingWindow.create 4 4 4 4).runMask 6 junk mask10x10 50).2.bb
      = replayFrom junk 0 ((SlidingWindow.create 4 4 4 4).runMask 6 junk mask10x10 50).2.trace
          BoundingBoxVector.empty :=
    run_bb_eq_replay (SlidingWindow.create 4 4 4 4) 6 junk mask10x10 50 _
  have hratio := run_eval_ratio (SlidingWindow.create 4 4 4 4) (by decide) (by decide) rfl 6
    junk mask10x10 (fun _ _ _ _ => Or.inr rfl) 50 ⟨0, 0, mask10x10.cols, mask10x10.rows⟩
    (by decide)
  refine ⟨hstatus, ?_, ?_, ?_, ?_, ?_⟩
  · rw [htrace]; rfl
  · intro e he
    have hr := (hratio e he).1
    rw [htrace] at he
    revert hr
    revert e
    decide!
  · rw [htrace]; decide!
  · rw [hbb, htrace]
    apply replayFrom_forall (fun b => b.bounding_box.Within ⟨0, 0, 8, 8⟩)
    · intro b hb
      exact absurd hb (List.not_mem_nil b)
    · intro e he hp
      have hw : e.window.Within ⟨0, 0, 8, 8⟩ := by
        revert hp
        revert e
        decide!
      refine ⟨hw, ?_⟩
      intro b hb
      rw [expand_bounding_box]
      exact union_within hb hw
  · intro hj
    rw [hbb, htrace, replayFrom]
    simp only [if_true, hj]
    rw [replayFrom_nonempty junk (fun _ => false) _ 1 _ (by decide!)]
    decide!

/-- C21 (amended), for a run in which `found` is clear at every `push`: the
returned boxes are the four full windows. -/
theorem run_mask10x10_full_windows_witness :
    ((SlidingWindow.create 4 4 4 4).runMask 6 (fun _ => false) mask10x10 50).2.bb.vector.map
        (fun b => b.bounding_box)
      = [⟨0, 0, 4, 4⟩, ⟨4, 0, 4, 4⟩, ⟨0, 4, 4, 4⟩, ⟨4, 4, 4, 4⟩] :=
  (run_mask10x10_full_windows (fun _ => false)).2.2.2.2.2 rfl

/-- C22 (the code departs from the claim): in the scan of the 11x11 mask by a
4x4 window with strides 4, the windows of the last column and of the last row,
at coordinate 8, are two pixels wide or high: they end at 10, one pixel before
the region's boundary 11, as every evaluated window does; they are scored
against the nominal area 16. -/
theorem run_mask11x11_last_windows_stop_short :
    ((SlidingWindow.create 4 4 4 4).runMask 6 (fun _ => false) mask11x11 50).1 = Status.done ∧
    ((SlidingWindow.create 4 4 4 4).runMask 6 (fun _ => false) mask11x11 50).2.trace
      = [⟨⟨0, 0, 4, 4⟩, 100, true⟩, ⟨⟨4, 0, 4, 4⟩, 100, true⟩, ⟨⟨8, 0, 2, 4⟩, 50, false⟩,
         ⟨⟨0, 4, 4, 4⟩, 100, true⟩, ⟨⟨4, 4, 4, 4⟩, 100, true⟩, ⟨⟨8, 4, 2, 4⟩, 50, false⟩,
         ⟨⟨0, 8, 4, 2⟩, 50, false⟩, ⟨⟨4, 8, 4, 2⟩, 50, false⟩, ⟨⟨8, 8, 2, 2⟩, 25, false⟩] ∧
    (∀ (fuel : Nat) (junk : Nat → Bool) (threshold : ℚ),
      ∀ e ∈ ((SlidingWindow.create 4 4 4 4).runMask fuel junk mask11x11 threshold).2.trace,
        e.window.x + e.window.width ≤ 10 ∧ e.window.y + e.window.height ≤ 10 ∧
        e.fill_ratio = 100 * (mask11x11.onPixels e.window : ℚ) / 16) := by
  refine ⟨by decide!, by decide!, ?_⟩
  intro fuel junk threshold e he
  have hg := run_window_geometry (SlidingWindow.create 4 4 4 4) (by decide) (by decide)
    fuel junk mask11x11 threshold ⟨0, 0, mask11x11.cols, mask11x11.rows⟩ e he
  have hr := run_eval_ratio (SlidingWindow.create 4 4 4 4) (by decide) (by decide) rfl fuel
    junk mask11x11 (fun _ _ _ _ => Or.inr rfl) threshold
    ⟨0, 0, mask11x11.cols, mask11x11.rows⟩ (by decide) e he
  simp only [mask11x11] at hg
  refine ⟨by omega, by omega, ?_⟩
  rw [hr.1]
  norm_num [SlidingWindow.create]

theorem expand_best_within (b : BoundingBox) (rect : Rect) (r : ℚ)
    (h : b.best_fit_box.Within b.bounding_box) :
    (b.expand rect r).best_fit_box.Within (b.expand rect r).bounding_box := by
  rw [expand_bounding_box]
  unfold BoundingBox.expand
  simp only
  split
  · exact within_trans h (union_within_left _ _)
  · exact union_within_right _ _

theorem expand_best_pair (b : BoundingBox) (rect : Rect) (r : ℚ) :
    ((b.expand rect r).best_fit_box, (b.expand rect r).fill_ratio)
        = (b.best_fit_box, b.fill_ratio) ∨
    ((b.expand rect r).best_fit_box, (b.expand rect r).fill_ratio) = (rect, r) := by
  unfold BoundingBox.expand
  simp only
  split
  · exact Or.inl rfl
  · exact Or.inr rfl

/-- C23: for a box built by `BoundingBox(rect0, r0)` and any sequence of
`expand(rect_i, r_i)` calls, the best rectangle together with the stored best
fill ratio is one of the pairs `(rect0, r0)`, `(rect_1, r_1)`, ..., and the
best rectangle lies within the union rectangle. -/
theorem best_rect_in_history (rect0 : Rect) (r0 : ℚ) (calls : List (Rect × ℚ)) :
    (((BoundingBox.create rect0 r0).expandAll calls).best_fit_box,
      ((BoundingBox.create rect0 r0).expandAll calls).fill_ratio) ∈ (rect0, r0) :: calls ∧
    ((BoundingBox.create rect0 r0).expandAll calls).best_fit_box.Within
      ((BoundingBox.create rect0 r0).expandAll calls).bounding_box := by
  have hgen : ∀ (cs : List (Rect × ℚ)) (b : BoundingBox),
      b.best_fit_box.Within b.bounding_box →
      (((b.expandAll cs).best_fit_box, (b.expandAll cs).fill_ratio)
          = (b.best_fit_box, b.fill_ratio) ∨
        ((b.expandAll cs).best_fit_box, (b.expandAll cs).fill_ratio) ∈ cs) ∧
      (b.expandAll cs).best_fit_box.Within (b.expandAll cs).bounding_box := by
    intro cs
    induction cs with
    | nil => intro b hb; exact ⟨Or.inl rfl, hb⟩
    | cons c cs ih =>
      intro b hb
      have hstep := ih (b.expand c.1 c.2) (expand_best_within b c.1 c.2 hb)
      have hfold : b.expandAll (c :: cs) = (b.expand c.1 c.2).expandAll cs := rfl
      rw [hfold]
      refine ⟨?_, hstep.2⟩
      rcases hstep.1 with h | h
      · rcases expand_best_pair b c.1 c.2 with h2 | h2
        · left; rw [h, h2]
        · right; rw [h, h2]; exact List.mem_cons_self _ _
      · right; exact List.mem_cons_of_mem _ h
  have h := hgen calls (BoundingBox.create rect0 r0) (within_refl _)
  refine ⟨?_, h.2⟩
  rcases h.1 with h1 | h1
  · rw [h1]; exact List.mem_cons_self _ _
  · exact List.mem_cons_of_mem _ h1

/-- C26 (the code departs from the claim): pushing `(0,0,2,2)`, `(5,0,2,2)` and
`(1,0,5,2)` into an empty vector with the uninitialised `found` set at the
first call loses the first rectangle and leaves the single box `(1,0,6,2)`.
With `found` clear the three pushes leave the two boxes `(0,0,6,2)` and
`(5,0,2,2)`, which intersect and are not merged. -/
theorem pushAll_overlap_example :
    (BoundingBoxVector.pushAll (fun k => decide (k = 0)) 0
        [(⟨0, 0, 2, 2⟩, 10), (⟨5, 0, 2, 2⟩, 20), (⟨1, 0, 5, 2⟩, 30)]
        BoundingBoxVector.empty).vector.map (fun b => b.bounding_box)
      = [⟨1, 0, 6, 2⟩] ∧
    (BoundingBoxVector.pushAll (fun _ => false) 0
        [(⟨0, 0, 2, 2⟩, 10), (⟨5, 0, 2, 2⟩, 20), (⟨1, 0, 5, 2⟩, 30)]
        BoundingBoxVector.empty).vector.map (fun b => b.bounding_box)
      = [⟨0, 0, 6, 2⟩, ⟨5, 0, 2, 2⟩] ∧
    (BoundingBox.create ⟨0, 0, 6, 2⟩ 30).doesIntersect ⟨5, 0, 2, 2⟩ = true := by
  refine ⟨by decide!, by decide!, by decide⟩

/-- Once the file name is the single character `%` the loop of `save` finds
that `%` again at every pass and never ends. -/
theorem saveLoop_percent_stuck (img : Image) (fuel : Nat) :
    saveLoop img fuel ['%'] 0 = none := by
  induction fuel with
  | zero => rfl
  | succ n ih =>
    rw [saveLoop]
    have h1 : saveSwitch img ['%'] 0 = ['%'] := rfl
    have h2 : findFrom '%' ['%'] 0 = some 0 := by decide
    simp only [h1, h2]
    exact ih

/-- C24 (the code departs from the claim): after a replacement the search for
the next `%` starts at the position of the replacement, so the `%` written for
`%%` is found again. For the pattern `%%` the expansion never ends, whatever
the image and the fuel; for the pattern `%%n` and the image `dir/a.png` it
yields `a.png`, the image's name, where the claim says the text `%n`. -/
theorem save_pattern_percent_reexpanded :
    (∀ (img : Image) (fuel : Nat), img.saveName fuel ['%', '%'] = none) ∧
    (Image.create sampleFile).saveName 5 ['%', '%', 'n'] = some ['a', '.', 'p', 'n', 'g'] ∧
    (Image.create sampleFile).saveName 5 ['o', '/', '%', 'n'] =
      some ['o', '/', 'a', '.', 'p', 'n', 'g'] := by
  refine ⟨?_, by decide, by decide⟩
  intro img fuel
  unfold Image.saveName
  have h0 : findFrom '%' ['%', '%'] 0 = some 0 := by decide
  simp only [h0]
  cases fuel with
  | zero => rfl
  | succ n =>
    rw [saveLoop]
    have h1 : saveSwitch img ['%', '%'] 0 = ['%'] := rfl
    have h2 : findFrom '%' ['%'] 0 = some 0 := by decide
    simp only [h1, h2]
    exact saveLoop_percent_stuck img n

/-- C25 (the code departs from the claim): `getPath` returns the field `name`.
For `dir/a.png` the constructor stores the path `dir` and the name `a.png`;
`getName` returns `a.png` and `getPath` returns `a.png` too. -/
theorem getPath_returns_name :
    (∀ img : Image, img.getPath = img.name) ∧
    (Image.create sampleFile).path = ['d', 'i', 'r'] ∧
    (Image.create sampleFile).getName = ['a', '.', 'p', 'n', 'g'] ∧
    (Image.create sampleFile).getPath = ['a', '.', 'p', 'n', 'g'] := by
  refine ⟨fun _ => rfl, by decide, by decide, by decide⟩

theorem rectSum_add_horizontal (m : Mat) (x y w1 w2 h : Int) (hw1 : 0 ≤ w1)
    (hw2 : 0 ≤ w2) :
    m.rectSum ⟨x, y, w1 + w2, h⟩ = m.rectSum ⟨x, y, w1, h⟩ + m.rectSum ⟨x + w1, y, w2, h⟩ := by
  unfold Mat.rectSum
  simp only
  have e : x + (w1 + w2) = x + w1 + w2 := by ring
  rw [e]
  exact sumOn_add_cols m _ _ (by omega) (by omega)

theorem rectSum_add_vertical (m : Mat) (x y w h1 h2 : Int) (hh1 : 0 ≤ h1)
    (hh2 : 0 ≤ h2) :
    m.rectSum ⟨x, y, w, h1 + h2⟩ = m.rectSum ⟨x, y, w, h1⟩ + m.rectSum ⟨x, y + h1, w, h2⟩ := by
  unfold Mat.rectSum
  simp only
  have e : y + (h1 + h2) = y + h1 + h2 := by ring
  rw [e]
  exact sumOn_add_rows m _ _ (by omega) (by omega)

theorem rectSum_zero (m : Mat) (rect : Rect) (h : rect.width = 0 ∨ rect.height = 0) :
    m.rectSum rect = 0 := by
  unfold Mat.rectSum Mat.sumOn
  rcases h with h | h
  · simp [h]
  · simp [h]

/-- C30 (the claim fails): in the mask of one row and five columns with every
pixel on, `A = (0,0,1,1)` and `B = (1,0,4,1)` are adjacent with union
`(0,0,5,1)`; with the reference area 3 the doubles returned are the roundings
of `100/3`, `400/3` and `500/3`, and the double sum of the first two is the
next double above the third. -/
theorem fillRatio_double_not_additive :
    SAT.fillRatioDouble { sat := integral mask1x5, have_sat := true } ⟨0, 0, 1, 1⟩ 3
      = .ok (4691249611844267 / 140737488355328) ∧
    SAT.fillRatioDouble { sat := integral mask1x5, have_sat := true } ⟨1, 0, 4, 1⟩ 3
      = .ok (4691249611844267 / 35184372088832) ∧
    SAT.fillRatioDouble { sat := integral mask1x5, have_sat := true } ⟨0, 0, 5, 1⟩ 3
      = .ok (5864062014805333 / 35184372088832) ∧
    addDouble (4691249611844267 / 140737488355328) (4691249611844267 / 35184372088832)
      = 5864062014805334 / 35184372088832 := by
  refine ⟨by decide!, by decide!, by decide!, by decide!⟩

/-- C30 (amended): for a SAT built from any `CV_8U` mask, a reference area
`a > 0` and two rectangles inside the mask that share a full edge, the exact
quotient `sum * 100 / a` of the union is the sum of the exact quotients of the
two parts (the doubles returned are these quotients rounded); and a rectangle
of zero width or zero height inside the mask has the fill ratio 0, as a double
too. -/
theorem fillRatio_additive_exact (m : Mat) (htype : m.type = CV_8U) (a : Nat) (ha : 0 < a) :
    ∃ s, SAT.build m = .ok s ∧
      (∀ x y w1 w2 h : Int, (Rect.mk x y w1 h).InMask m → (Rect.mk (x + w1) y w2 h).InMask m →
        ∃ qa qb, s.fillRatio ⟨x, y, w1, h⟩ a = .ok qa ∧ s.fillRatio ⟨x + w1, y, w2, h⟩ a = .ok qb ∧
          s.fillRatio ⟨x, y, w1 + w2, h⟩ a = .ok (qa + qb)) ∧
      (∀ x y w h1 h2 : Int, (Rect.mk x y w h1).InMask m → (Rect.mk x (y + h1) w h2).InMask m →
        ∃ qa qb, s.fillRatio ⟨x, y, w, h1⟩ a = .ok qa ∧ s.fillRatio ⟨x, y + h1, w, h2⟩ a = .ok qb ∧
          s.fillRatio ⟨x, y, w, h1 + h2⟩ a = .ok (qa + qb)) ∧
      (∀ rect : Rect, rect.InMask m → rect.width = 0 ∨ rect.height = 0 →
        s.fillRatio rect a = .ok 0 ∧ s.fillRatioDouble rect a = .ok 0) := by
  have hne : a ≠ 0 := by omega
  refine ⟨{ sat := integral m, have_sat := true }, by simp [SAT.build, htype], ?_, ?_, ?_⟩
  · intro x y w1 w2 h hA hB
    have hU : (Rect.mk x y (w1 + w2) h).InMask m := by
      unfold Rect.InMask at *
      simp only at *
      omega
    refine ⟨(m.rectSum ⟨x, y, w1, h⟩ : ℚ) * 100 / (a : ℚ),
      (m.rectSum ⟨x + w1, y, w2, h⟩ : ℚ) * 100 / (a : ℚ), ?_, ?_, ?_⟩
    · rw [fillRatio_eq_rectSum m _ hA, if_neg hne]
    · rw [fillRatio_eq_rectSum m _ hB, if_neg hne]
    · rw [fillRatio_eq_rectSum m _ hU, if_neg hne,
        rectSum_add_horizontal m x y w1 w2 h hA.2.2.1 hB.2.2.1]
      congr 1
      push_cast
      ring
  · intro x y w h1 h2 hA hB
    have hU : (Rect.mk x y w (h1 + h2)).InMask m := by
      unfold Rect.InMask at *
      simp only at *
      omega
    refine ⟨(m.rectSum ⟨x, y, w, h1⟩ : ℚ) * 100 / (a : ℚ),
      (m.rectSum ⟨x, y + h1, w, h2⟩ : ℚ) * 100 / (a : ℚ), ?_, ?_, ?_⟩
    · rw [fillRatio_eq_rectSum m _ hA, if_neg hne]
    · rw [fillRatio_eq_rectSum m _ hB, if_neg hne]
    · rw [fillRatio_eq_rectSum m _ hU, if_neg hne,
        rectSum_add_vertical m x y w h1 h2 hA.2.2.2.1 hB.2.2.2.1]
      congr 1
      push_cast
      ring
  · intro rect hin hz
    have h0 : SAT.fillRatio { sat := integral m, have_sat := true } rect a = .ok 0 := by
      rw [fillRatio_eq_rectSum m _ hin, if_neg hne, rectSum_zero m rect hz]
      simp
    refine ⟨h0, ?_⟩
    unfold SAT.fillRatioDouble
    rw [h0]
    simp [roundDouble]

/-- C30 (amended), at the mask of one row and five columns, the reference area
3 and the rectangles `(0,0,1,1)` and `(1,0,4,1)`. -/
theorem fillRatio_additive_exact_witness :
    ∃ s, SAT.build mask1x5 = .ok s ∧
      ∃ qa qb, s.fillRatio ⟨0, 0, 1, 1⟩ 3 = .ok qa ∧ s.fillRatio ⟨0 + 1, 0, 4, 1⟩ 3 = .ok qb ∧
        s.fillRatio ⟨0, 0, 1 + 4, 1⟩ 3 = .ok (qa + qb) := by
  obtain ⟨s, hs, h1, _, _⟩ := fillRatio_additive_exact mask1x5 rfl 3 (by decide)
  exact ⟨s, hs, h1 0 0 1 4 1 (by decide) (by decide)⟩

end ODF
